import Mathlib

/-! A line-numbered BASIC interpreter: program table, statements and run loop.

Shallow embedding of `src/Basic/program.cpp`, `src/Basic/statement.cpp`,
`src/Basic/statement.hpp` and the run loop of `src/Basic/Basic.cpp`.

* `std::map<int, T>` is a list of entries in strictly ascending key order;
  an iterator is the suffix of the entry list it points at, `end()` is `[]`.
* `int` is `Int`; line numbers are only compared, never computed with.
* The globals `currentLine`, `nextLine`, `shouldEnd` of `statement.cpp`, the
  variable store, `std::cout` and `std::cin` are the fields of `Machine`.
* An `ErrorException` that propagates out of a function is the result
  `Exec.raised`, carrying the machine as it was when the exception was thrown.
-/

namespace Basic

/-! ## `std::map<int, T>` -/

/-- Insertion of key `k` with value `v` into an ascending entry list
(`operator[]` followed by assignment): an entry with key `k` is overwritten. -/
def insertEntries {α : Type} (k : Int) (v : α) : List (Int × α) → List (Int × α)
  | [] => [(k, v)]
  | (k', v') :: rest =>
    if k < k' then (k, v) :: (k', v') :: rest
    else if k = k' then (k, v) :: rest
    else (k', v') :: insertEntries k v rest

/-- Removal of the entry with key `k` (`std::map::erase(key)`). -/
def eraseEntries {α : Type} (k : Int) (es : List (Int × α)) : List (Int × α) :=
  es.filter (fun e => decide (e.1 ≠ k))

/-- The keys of an entry list, in iteration order. -/
def entryKeys {α : Type} (es : List (Int × α)) : List Int :=
  es.map Prod.fst

/-- The `std::map<int, T>` container: entries with strictly ascending keys. -/
structure IntMap (α : Type) where
  entries : List (Int × α)
  ordered : (entryKeys entries).Pairwise (fun a b => a < b)

namespace IntMap

variable {α : Type}

/-- The empty map, also the result of `clear()`. -/
def empty : IntMap α :=
  ⟨[], List.Pairwise.nil⟩

/-- Iterator returned by `find(k)`: the suffix of the entries that starts at
key `k`, or `[]` for `end()`. -/
def find (m : IntMap α) (k : Int) : List (Int × α) :=
  m.entries.dropWhile (fun e => decide (e.1 ≠ k))

/-- Assignment `m[k] = v`. -/
def insert (m : IntMap α) (k : Int) (v : α) : IntMap α :=
  ⟨insertEntries k v m.entries, by
    have keys : ∀ (es : List (Int × α)) (x : Int),
        x ∈ entryKeys (insertEntries k v es) → x = k ∨ x ∈ entryKeys es := by
      intro es
      induction es with
      | nil => intro x hx; simpa [insertEntries, entryKeys] using hx
      | cons e rest ih =>
        intro x hx
        obtain ⟨k', v'⟩ := e
        unfold insertEntries at hx
        split_ifs at hx with h1 h2
        · simp only [entryKeys, List.map_cons, List.mem_cons] at hx ⊢
          tauto
        · simp only [entryKeys, List.map_cons, List.mem_cons] at hx ⊢
          tauto
        · simp only [entryKeys, List.map_cons, List.mem_cons] at hx ⊢
          rcases hx with hx | hx
          · tauto
          · rcases ih x hx with h | h
            · tauto
            · tauto
    have main : ∀ es : List (Int × α), (entryKeys es).Pairwise (fun a b => a < b) →
        (entryKeys (insertEntries k v es)).Pairwise (fun a b => a < b) := by
      intro es
      induction es with
      | nil => intro _; simp [insertEntries, entryKeys]
      | cons e rest ih =>
        intro hp
        obtain ⟨k', v'⟩ := e
        simp only [entryKeys, List.map_cons, List.pairwise_cons] at hp
        unfold insertEntries
        split_ifs with h1 h2
        · simp only [entryKeys, List.map_cons, List.pairwise_cons, List.mem_cons]
          refine ⟨?_, hp⟩
          intro x hx
          rcases hx with hx | hx
          · omega
          · have := hp.1 x hx
            omega
        · simp only [entryKeys, List.map_cons, List.pairwise_cons]
          subst h2
          exact hp
        · simp only [entryKeys, List.map_cons, List.pairwise_cons]
          refine ⟨?_, ih hp.2⟩
          intro x hx
          rcases keys rest x hx with h | h
          · omega
          · exact hp.1 x h
    exact main m.entries m.ordered⟩

/-- Removal `m.erase(k)`. -/
def erase (m : IntMap α) (k : Int) : IntMap α :=
  ⟨eraseEntries k m.entries,
    m.ordered.sublist ((List.filter_sublist m.entries).map Prod.fst)⟩

/-- The keys in iteration order. -/
def keys (m : IntMap α) : List Int :=
  entryKeys m.entries

end IntMap

/-! ## Expressions and the variable store -/

/-- The errors raised through `error(msg)`: `SYNTAX ERROR` and
`LINE NUMBER ERROR` in `Basic.cpp`, and the two evaluation errors. -/
inductive ErrorException
  | syntaxError
  | lineNumberError
  | undefinedVariable
  | divisionByZero
  deriving DecidableEq

/-- Modelled from the spec: the variable store `EvalState` (`evalstate.hpp` is
not among the sources), a mapping from variable name to integer value. -/
structure EvalState where
  symbolTable : String → Option Int

namespace EvalState

/-- Modelled from the spec: the store without bindings. -/
def empty : EvalState :=
  ⟨fun _ => none⟩

/-- Modelled from the spec: `set`, binding `var` to `value`. -/
def setValue (state : EvalState) (var : String) (value : Int) : EvalState :=
  ⟨fun name => if name = var then some value else state.symbolTable name⟩

/-- Modelled from the spec: `get`, which fails if `var` is undefined. -/
def getValue (state : EvalState) (var : String) : Except ErrorException Int :=
  match state.symbolTable var with
  | some value => .ok value
  | none => .error .undefinedVariable

/-- Modelled from the spec: `clear-all`. -/
def Clear (_state : EvalState) : EvalState :=
  empty

end EvalState

/-- Modelled from the spec: the operators of a binary expression node. -/
inductive BinaryOperator
  | plus
  | minus
  | times
  | divide
  deriving DecidableEq

/-- Modelled from the spec: the expression tree (`exp.hpp` is not among the
sources): integer literal, variable reference, binary operator node. -/
inductive Expression
  | Constant (value : Int)
  | VariableRef (name : String)
  | BinaryOp (op : BinaryOperator) (left right : Expression)
  deriving DecidableEq

/-- Modelled from the spec: `evaluate(expr, store)`, failing with
`undefinedVariable` on an unbound name and with `divisionByZero` when a
divisor evaluates to 0; division truncates. -/
def Expression.eval : Expression → EvalState → Except ErrorException Int
  | .Constant value, _ => .ok value
  | .VariableRef name, state => state.getValue name
  | .BinaryOp op left right, state =>
    match left.eval state with
    | .error e => .error e
    | .ok l =>
      match right.eval state with
      | .error e => .error e
      | .ok r =>
        match op with
        | .plus => .ok (l + r)
        | .minus => .ok (l - r)
        | .times => .ok (l * r)
        | .divide => if r = 0 then .error .divisionByZero else .ok (Int.tdiv l r)

/-! ## Statements (`statement.hpp`, `statement.cpp`) -/

/-- The subclasses of `Statement` with their private data. -/
inductive Statement
  | RemStatement
  | LetStatement (varName : String) (exp : Expression)
  | PrintStatement (exp : Expression)
  | InputStatement (varName : String)
  | EndStatement
  | GotoStatement (targetLine : Int)
  | IfStatement (lhs : Expression) (op : String) (rhs : Expression) (targetLine : Int)
  deriving DecidableEq

/-- The state a statement acts on: the variable store, the three globals of
`statement.cpp`, what has been written to `std::cout` (one item per output
statement, oldest first) and the lines still to be read from `std::cin`. -/
structure Machine where
  state : EvalState
  currentLine : Int
  nextLine : Int
  shouldEnd : Bool
  output : List String
  input : List String

/-- How a call ends: it returns (`done`), an `ErrorException` leaves it
(`raised`), or `std::cin` is exhausted inside an `INPUT`, where the source
prompts again without end (`starved`). Each carries the machine reached. -/
inductive Exec
  | done (m : Machine)
  | raised (e : ErrorException) (m : Machine)
  | starved (m : Machine)

/-- The characters `std::isspace` accepts in the C locale. -/
def isspace (c : Char) : Bool :=
  c.toNat = 32 || (9 ≤ c.toNat && c.toNat ≤ 13)

/-- The library call `std::stoi(str)`: leading white space is skipped, an
optional sign and the longest run of decimal digits are read; `none` stands
for both of its exceptions (no digits, or a value outside `int`). -/
def stoi (str : String) : Option Int :=
  let afterSpace := str.toList.dropWhile isspace
  let negative := afterSpace.head? = some '-'
  let afterSign :=
    if afterSpace.head? = some '-' ∨ afterSpace.head? = some '+' then afterSpace.tail
    else afterSpace
  let digits := afterSign.takeWhile Char.isDigit
  let magnitude : Nat := digits.foldl (fun acc c => 10 * acc + (c.toNat - 48)) 0
  let value : Int := if negative then -(magnitude : Int) else (magnitude : Int)
  if digits.isEmpty then none
  else if -2147483648 ≤ value ∧ value ≤ 2147483647 then some value
  else none

/-- The body of `InputStatement::execute` over the lines left on `std::cin`:
prompt, read a line, bind it if `stoi` accepts it, otherwise report
`INVALID NUMBER` and call itself again. -/
def executeInput (varName : String) : List String → Machine → Exec
  | [], m => .starved { m with input := [] }
  | line :: rest, m =>
    match stoi line with
    | some value =>
      .done { m with
        output := m.output ++ [" ? "]
        input := rest
        state := m.state.setValue varName value }
    | none =>
      executeInput varName rest
        { m with output := m.output ++ [" ? ", "INVALID NUMBER\n"], input := rest }

/-- The virtual method `execute(state, program)`; no subclass touches the
program table, which is therefore left out. -/
def Statement.execute : Statement → Machine → Exec
  | .RemStatement, m => .done m
  | .LetStatement varName exp, m =>
    match exp.eval m.state with
    | .error e => .raised e m
    | .ok value => .done { m with state := m.state.setValue varName value }
  | .PrintStatement exp, m =>
    match exp.eval m.state with
    | .error e => .raised e m
    | .ok value => .done { m with output := m.output ++ [toString value ++ "\n"] }
  | .InputStatement varName, m => executeInput varName m.input m
  | .EndStatement, m => .done { m with shouldEnd := true }
  | .GotoStatement targetLine, m => .done { m with nextLine := targetLine }
  | .IfStatement lhs op rhs targetLine, m =>
    match lhs.eval m.state with
    | .error e => .raised e m
    | .ok leftVal =>
      match rhs.eval m.state with
      | .error e => .raised e m
      | .ok rightVal =>
        let condition : Bool :=
          if op = "=" then decide (leftVal = rightVal)
          else if op = "<" then decide (leftVal < rightVal)
          else if op = ">" then decide (leftVal > rightVal)
          else false
        if condition then .done { m with nextLine := targetLine } else .done m

/-! ## The program table (`program.cpp`) -/

/-- The two maps of class `Program`. -/
structure Program where
  sourceLines : IntMap String
  parsedStatements : IntMap Statement

namespace Program

/-- The table of `Program::Program()`. -/
def empty : Program :=
  ⟨IntMap.empty, IntMap.empty⟩

/-- The method `Program::clear`. -/
def clear (_p : Program) : Program :=
  ⟨IntMap.empty, IntMap.empty⟩

/-- The method `Program::addSourceLine`. -/
def addSourceLine (p : Program) (lineNumber : Int) (line : String) : Program :=
  let parsed :=
    if (p.parsedStatements.find lineNumber).isEmpty then p.parsedStatements
    else p.parsedStatements.erase lineNumber
  ⟨p.sourceLines.insert lineNumber line, parsed⟩

/-- The method `Program::removeSourceLine`. -/
def removeSourceLine (p : Program) (lineNumber : Int) : Program :=
  let parsed :=
    if (p.parsedStatements.find lineNumber).isEmpty then p.parsedStatements
    else p.parsedStatements.erase lineNumber
  ⟨p.sourceLines.erase lineNumber, parsed⟩

/-- The method `Program::getSourceLine`. -/
def getSourceLine (p : Program) (lineNumber : Int) : String :=
  match p.sourceLines.find lineNumber with
  | [] => ""
  | (_, line) :: _ => line

/-- The method `Program::setParsedStatement`. -/
def setParsedStatement (p : Program) (lineNumber : Int) (stmt : Statement) : Program :=
  ⟨p.sourceLines, p.parsedStatements.insert lineNumber stmt⟩

/-- The method `Program::getParsedStatement`; `none` is the null pointer. -/
def getParsedStatement (p : Program) (lineNumber : Int) : Option Statement :=
  match p.parsedStatements.find lineNumber with
  | [] => none
  | (_, stmt) :: _ => some stmt

/-- The method `Program::getFirstLineNumber`. -/
def getFirstLineNumber (p : Program) : Int :=
  match p.sourceLines.entries with
  | [] => -1
  | (lineNumber, _) :: _ => lineNumber

/-- The method `Program::getNextLineNumber`. -/
def getNextLineNumber (p : Program) (lineNumber : Int) : Int :=
  match p.sourceLines.find lineNumber with
  | [] => -1
  | _ :: [] => -1
  | _ :: (next, _) :: _ => next

end Program

/-! ## The run loop (`Basic.cpp`) -/

/-- First half of the loop body of `runProgram`: the natural successor is
recorded in `nextLine` and the statement parsed for `currentLine`, if there is
one, is executed. -/
def executeCurrent (program : Program) (m : Machine) : Exec :=
  let m1 := { m with nextLine := program.getNextLineNumber m.currentLine }
  match program.getParsedStatement m1.currentLine with
  | some stmt => stmt.execute m1
  | none => .done m1

/-- What one pass through the loop body of `runProgram` leads to: the loop
goes on from a machine, or the function is left. -/
inductive LoopResult
  | again (m : Machine)
  | leave (r : Exec)

/-- Second half of the loop body of `runProgram`: the test whether a jump
changed `nextLine`, the existence check of the target, `break` on
`shouldEnd`. -/
def advance (program : Program) (m : Machine) : LoopResult :=
  if m.nextLine ≠ program.getNextLineNumber m.currentLine ∧ m.nextLine ≠ -1 then
    if program.getSourceLine m.nextLine = "" then
      .leave (.raised .lineNumberError m)
    else .again { m with currentLine := m.nextLine }
  else if m.shouldEnd then .leave (.done m)
  else .again { m with currentLine := m.nextLine }

/-- One pass through the loop body of `runProgram`. -/
def loopBody (program : Program) (m : Machine) : LoopResult :=
  match executeCurrent program m with
  | .done m2 => advance program m2
  | .raised e m2 => .leave (.raised e m2)
  | .starved m2 => .leave (.starved m2)

/-- The loop `while (currentLine != -1 && !shouldEnd)` of `runProgram`, with
at most `fuel` passes; `none` means the passes did not suffice. -/
def runLoop (program : Program) : Nat → Machine → Option Exec
  | 0, _ => none
  | fuel + 1, m =>
    if m.currentLine ≠ -1 ∧ m.shouldEnd = false then
      match loopBody program m with
      | .again m2 => runLoop program fuel m2
      | .leave r => some r
    else some (.done m)

/-- The two assignments before the loop of `runProgram`. -/
def enterLoop (program : Program) (m : Machine) : Machine :=
  { m with currentLine := program.getFirstLineNumber, shouldEnd := false }

/-- The function `runProgram`. -/
def runProgram (fuel : Nat) (program : Program) (m : Machine) : Option Exec :=
  runLoop program fuel (enterLoop program m)

/-- The traversal by `getNextLineNumber`, as in the loop of the `LIST`
command: the line numbers visited from `lineNum` on until `-1` comes up,
`none` if `fuel` passes did not suffice. -/
def visitFrom (program : Program) : Nat → Int → Option (List Int)
  | 0, _ => none
  | fuel + 1, lineNum =>
    if lineNum ≠ -1 then
      (visitFrom program fuel (program.getNextLineNumber lineNum)).map (fun ls => lineNum :: ls)
    else some []

/-- The line numbers visited from `getFirstLineNumber` on. -/
def traversal (fuel : Nat) (program : Program) : Option (List Int) :=
  visitFrom program fuel program.getFirstLineNumber

/-- The table after the calls `addSourceLine(n, text)` for the pairs of
`calls`, in order, on `program`. -/
def addSourceLines (program : Program) (calls : List (Int × String)) : Program :=
  calls.foldl (fun p c => p.addSourceLine c.1 c.2) program

/-- The machine at the head of the loop of `runProgram` after `k` complete
passes, when the loop gets that far (`none` when it was left earlier). -/
def passes (program : Program) : Nat → Machine → Option Machine
  | 0, m => some m
  | k + 1, m =>
    if m.currentLine ≠ -1 ∧ m.shouldEnd = false then
      match loopBody program m with
      | .again m2 => passes program k m2
      | .leave _ => none
    else none

/-! ## Lines entered by the user (`processLine` in `Basic.cpp`) -/

/-- The helper `isInteger` of `Basic.cpp`. -/
def isInteger (str : String) : Bool :=
  if str.toList.isEmpty then false
  else
    let signed : Bool := str.toList.head? = some '-' || str.toList.head? = some '+'
    if signed && str.toList.length = 1 then false
    else (if signed then str.toList.tail else str.toList).all Char.isDigit

/-- The helper `isKeyword` of `Basic.cpp`. -/
def isKeyword (str : String) : Bool :=
  str = "REM" || str = "LET" || str = "PRINT" ||
  str = "INPUT" || str = "END" || str = "GOTO" ||
  str = "IF" || str = "THEN" || str = "RUN" ||
  str = "LIST" || str = "CLEAR" || str = "QUIT" ||
  str = "HELP"

/-- Modelled from the spec: the token stream (`Utils/tokenScanner.hpp` is not
among the sources), as the tokens of the line not yet consumed. -/
abbrev TokenScanner := List String

/-- Modelled from the spec: the has-more-tokens query. -/
def TokenScanner.hasMoreTokens (scanner : TokenScanner) : Bool :=
  !scanner.isEmpty

/-- Modelled from the spec: the next lexical token and the stream after it;
at the end of the stream the token is the empty string. -/
def TokenScanner.nextToken (scanner : TokenScanner) : String × TokenScanner :=
  match scanner with
  | [] => ("", [])
  | token :: rest => (token, rest)

/-- The parts of the front end that are not among the sources, taken as
parameters: the tokens `setInput` makes of a line (white space ignored,
numbers scanned), and the expression parsers `parseExp` and `readE` of
`parser.hpp`, which consume tokens and return an expression or raise an
`ErrorException`. -/
structure FrontEnd where
  setInput : String → TokenScanner
  parseExp : TokenScanner → Except ErrorException (Expression × TokenScanner)
  readE : TokenScanner → Int → Except ErrorException (Expression × TokenScanner)

/-- What can leave `parseStatement` other than its result: an
`ErrorException`, or one of the exceptions of `std::stoi`, which `main` does
not catch. -/
inductive Thrown
  | error (e : ErrorException)
  | stdException
  deriving DecidableEq

/-- The function `parseStatement` of `Basic.cpp`: the statement parsed (`none`
is the null pointer) and the scanner after it. -/
def parseStatement (fe : FrontEnd) (scanner : TokenScanner) (cmd : String) :
    Except Thrown (Option Statement × TokenScanner) :=
  if cmd = "REM" then .ok (some .RemStatement, scanner)
  else if cmd = "LET" then
    let (varName, scanner1) := scanner.nextToken
    if isKeyword varName then .error (.error .syntaxError)
    else
      let (equals, scanner2) := scanner1.nextToken
      if equals ≠ "=" then .error (.error .syntaxError)
      else
        match fe.parseExp scanner2 with
        | .error e => .error (.error e)
        | .ok (exp, scanner3) => .ok (some (.LetStatement varName exp), scanner3)
  else if cmd = "PRINT" then
    match fe.parseExp scanner with
    | .error e => .error (.error e)
    | .ok (exp, scanner1) => .ok (some (.PrintStatement exp), scanner1)
  else if cmd = "INPUT" then
    let (varName, scanner1) := scanner.nextToken
    if isKeyword varName then .error (.error .syntaxError)
    else .ok (some (.InputStatement varName), scanner1)
  else if cmd = "END" then .ok (some .EndStatement, scanner)
  else if cmd = "GOTO" then
    let (lineStr, scanner1) := scanner.nextToken
    match stoi lineStr with
    | none => .error .stdException
    | some line => .ok (some (.GotoStatement line), scanner1)
  else if cmd = "IF" then
    match fe.readE scanner 1 with
    | .error e => .error (.error e)
    | .ok (lhs, scanner1) =>
      let (op, scanner2) := scanner1.nextToken
      if op ≠ "=" ∧ op ≠ "<" ∧ op ≠ ">" then .error (.error .syntaxError)
      else
        match fe.readE scanner2 1 with
        | .error e => .error (.error e)
        | .ok (rhs, scanner3) =>
          let (then_, scanner4) := scanner3.nextToken
          if then_ ≠ "THEN" then .error (.error .syntaxError)
          else
            let (lineStr, scanner5) := scanner4.nextToken
            match stoi lineStr with
            | none => .error .stdException
            | some line => .ok (some (.IfStatement lhs op rhs line), scanner5)
  else .ok (none, scanner)

/-- The loop of the `LIST` command: the source line of every line number
visited is written; `none` if `fuel` passes did not suffice. -/
def listFrom (program : Program) : Nat → Int → Machine → Option Machine
  | 0, _, _ => none
  | fuel + 1, lineNum, m =>
    if lineNum ≠ -1 then
      listFrom program fuel (program.getNextLineNumber lineNum)
        { m with output := m.output ++ [program.getSourceLine lineNum ++ "\n"] }
    else some m

/-- How a call of `processLine` ends, with the program table and the machine
reached: it returns, an `ErrorException` leaves it (which `main` catches and
reports), an exception of `std::stoi` leaves it (which ends the process),
`exit(0)` is called, or `std::cin` is exhausted inside an `INPUT`. -/
inductive LineExec
  | returned (program : Program) (m : Machine)
  | raised (e : ErrorException) (program : Program) (m : Machine)
  | aborted (program : Program) (m : Machine)
  | exited (program : Program) (m : Machine)
  | starved (program : Program) (m : Machine)

/-- The end of a statement or of the run as the end of `processLine`. -/
def LineExec.ofExec (program : Program) : Exec → LineExec
  | .done m => .returned program m
  | .raised e m => .raised e program m
  | .starved m => .starved program m

/-- The function `processLine` of `Basic.cpp`; `fuel` bounds the passes of the
loops of `RUN` and `LIST`, and `none` means they did not suffice. -/
def processLine (fe : FrontEnd) (fuel : Nat) (line : String) (program : Program)
    (m : Machine) : Option LineExec :=
  let scanner := fe.setInput line
  if !scanner.hasMoreTokens then some (.returned program m)
  else
    let (token, scanner1) := scanner.nextToken
    if isInteger token then
      match stoi token with
      | none => some (.aborted program m)
      | some lineNumber =>
        if !scanner1.hasMoreTokens then
          some (.returned (program.removeSourceLine lineNumber) m)
        else
          let program1 := program.addSourceLine lineNumber line
          let (cmd, scanner2) := scanner1.nextToken
          match parseStatement fe scanner2 cmd with
          | .error (.error e) => some (.raised e program1 m)
          | .error .stdException => some (.aborted program1 m)
          | .ok (some stmt, _) =>
            some (.returned (program1.setParsedStatement lineNumber stmt) m)
          | .ok (none, _) => some (.returned program1 m)
    else if token = "QUIT" then some (.exited program m)
    else if token = "LIST" then
      (listFrom program fuel program.getFirstLineNumber m).map (.returned program)
    else if token = "CLEAR" then
      some (.returned program.clear { m with state := m.state.Clear })
    else if token = "RUN" then
      (runProgram fuel program m).map (LineExec.ofExec program)
    else if token = "HELP" then some (.returned program m)
    else
      match parseStatement fe scanner1 token with
      | .error (.error e) => some (.raised e program m)
      | .error .stdException => some (.aborted program m)
      | .ok (some stmt, _) => some (LineExec.ofExec program (stmt.execute m))
      | .ok (none, _) => some (.returned program m)

/-! ## The programs of the specification's examples -/

/-- The table after entering `10 LET X = 5`, `20 IF X > 0 THEN 40`,
`30 PRINT X`, `40 PRINT 0`, `50 END`, each stored with its statement. -/
def jumpOverProgram : Program :=
  (((((((((Program.empty.addSourceLine 10 "10 LET X = 5").setParsedStatement 10
    (.LetStatement "X" (.Constant 5))).addSourceLine 20 "20 IF X > 0 THEN 40").setParsedStatement 20
    (.IfStatement (.VariableRef "X") ">" (.Constant 0) 40)).addSourceLine 30
    "30 PRINT X").setParsedStatement 30
    (.PrintStatement (.VariableRef "X"))).addSourceLine 40 "40 PRINT 0").setParsedStatement 40
    (.PrintStatement (.Constant 0))).addSourceLine 50 "50 END").setParsedStatement 50
    .EndStatement

/-- The table after entering `10 GOTO 30` alone. -/
def danglingGotoProgram : Program :=
  (Program.empty.addSourceLine 10 "10 GOTO 30").setParsedStatement 10 (.GotoStatement 30)

/-- The table after `addSourceLine(5, ..)` and `addSourceLine(-1, ..)`. -/
def sentinelKeyProgram : Program :=
  addSourceLines Program.empty [(5, "5 REM"), (-1, "-1 REM")]

/-- The table after `addSourceLine(10, ..)` and `addSourceLine(30, ..)`. -/
def gapProgram : Program :=
  addSourceLines Program.empty [(10, "10 REM"), (30, "30 END")]

/-- A machine with an empty store, nothing written and nothing to read. -/
def freshMachine : Machine :=
  ⟨EvalState.empty, -1, -1, false, [], []⟩

/-- The maximal runs of characters between blanks, an empty run included
where two blanks meet. -/
def blankRuns : List Char → List (List Char)
  | [] => [[]]
  | c :: cs =>
    if c = ' ' then [] :: blankRuns cs
    else
      match blankRuns cs with
      | [] => [[c]]
      | run :: runs => (c :: run) :: runs

/-- A front end for the examples: a line is split at blanks, and no
expression is accepted. -/
def blankFrontEnd : FrontEnd :=
  ⟨fun line => ((blankRuns line.toList).filter (fun run => !run.isEmpty)).map String.mk,
    fun _ => .error .syntaxError, fun _ _ => .error .syntaxError⟩

/-! ## Successive calls of `processLine` -/

/-- The program table a call of `processLine` leaves behind, however it ends. -/
def LineExec.program : LineExec → Program
  | .returned program _ => program
  | .raised _ program _ => program
  | .aborted program _ => program
  | .exited program _ => program
  | .starved program _ => program

/-- The machine a call of `processLine` leaves behind, however it ends. -/
def LineExec.machine : LineExec → Machine
  | .returned _ m => m
  | .raised _ _ m => m
  | .aborted _ m => m
  | .exited _ m => m
  | .starved _ m => m

/-- Whether the loop of `main` goes on to the next line after the call: it
does after a return and after an `ErrorException`, which it catches. -/
def LineExec.goesOn : LineExec → Bool
  | .returned _ _ => true
  | .raised _ _ _ => true
  | .aborted _ _ => false
  | .exited _ _ => false
  | .starved _ _ => false

/-- The calls of `processLine` for the lines of `lines`, one after the other
as the loop of `main` makes them, each on the table and machine the one
before left behind; the table and machine after the last call made. What
`main` itself writes when it catches an `ErrorException` is not part of
`processLine`. -/
def feedLines (fe : FrontEnd) (fuel : Nat) : List String → Program → Machine →
    Option (Program × Machine)
  | [], program, m => some (program, m)
  | line :: rest, program, m =>
    match processLine fe fuel line program m with
    | none => none
    | some r =>
      if r.goesOn then feedLines fe fuel rest r.program r.machine
      else some (r.program, r.machine)

/-- A front end for the examples: a line is split at blanks, and an
expression is a single token, an integer literal or else a variable name
that is no keyword. -/
def operandFrontEnd : FrontEnd :=
  ⟨blankFrontEnd.setInput,
    fun scanner =>
      match scanner with
      | [] => .error .syntaxError
      | token :: rest =>
        if isKeyword token then .error .syntaxError
        else if isInteger token then
          match stoi token with
          | some value => .ok (.Constant value, rest)
          | none => .error .syntaxError
        else .ok (.VariableRef token, rest),
    fun scanner _ =>
      match scanner with
      | [] => .error .syntaxError
      | token :: rest =>
        if isKeyword token then .error .syntaxError
        else if isInteger token then
          match stoi token with
          | some value => .ok (.Constant value, rest)
          | none => .error .syntaxError
        else .ok (.VariableRef token, rest)⟩

/-! ## The run with the program table made explicit -/

/-- The virtual method `execute(state, program)` with the program table,
which it is handed by reference, made explicit: the result comes with the
table as the call leaves it. -/
def Statement.executeOn : Statement → Machine → Program → Exec × Program
  | .RemStatement, m, program => (.done m, program)
  | .LetStatement varName exp, m, program =>
    match exp.eval m.state with
    | .error e => (.raised e m, program)
    | .ok value => (.done { m with state := m.state.setValue varName value }, program)
  | .PrintStatement exp, m, program =>
    match exp.eval m.state with
    | .error e => (.raised e m, program)
    | .ok value => (.done { m with output := m.output ++ [toString value ++ "\n"] }, program)
  | .InputStatement varName, m, program => (executeInput varName m.input m, program)
  | .EndStatement, m, program => (.done { m with shouldEnd := true }, program)
  | .GotoStatement targetLine, m, program => (.done { m with nextLine := targetLine }, program)
  | .IfStatement lhs op rhs targetLine, m, program =>
    match lhs.eval m.state with
    | .error e => (.raised e m, program)
    | .ok leftVal =>
      match rhs.eval m.state with
      | .error e => (.raised e m, program)
      | .ok rightVal =>
        let condition : Bool :=
          if op = "=" then decide (leftVal = rightVal)
          else if op = "<" then decide (leftVal < rightVal)
          else if op = ">" then decide (leftVal > rightVal)
          else false
        if condition then (.done { m with nextLine := targetLine }, program)
        else (.done m, program)

/-- One pass through the loop body of `runProgram`, with the program table as
the pass leaves it. -/
def loopBodyOn (m : Machine) (program : Program) : LoopResult × Program :=
  let m1 := { m with nextLine := program.getNextLineNumber m.currentLine }
  let executed : Exec × Program :=
    match program.getParsedStatement m1.currentLine with
    | some stmt => stmt.executeOn m1 program
    | none => (.done m1, program)
  match executed with
  | (.done m2, program2) => (advance program2 m2, program2)
  | (.raised e m2, program2) => (.leave (.raised e m2), program2)
  | (.starved m2, program2) => (.leave (.starved m2), program2)

/-- The loop of `runProgram` with the program table as the loop leaves it. -/
def runLoopOn : Nat → Machine → Program → Option (Exec × Program)
  | 0, _, _ => none
  | fuel + 1, m, program =>
    if m.currentLine ≠ -1 ∧ m.shouldEnd = false then
      match loopBodyOn m program with
      | (.again m2, program2) => runLoopOn fuel m2 program2
      | (.leave r, program2) => some (r, program2)
    else some (.done m, program)

/-- The function `runProgram` with the program table as the run leaves it. -/
def runProgramOn (fuel : Nat) (m : Machine) (program : Program) : Option (Exec × Program) :=
  runLoopOn fuel (enterLoop program m) program

/-! ## The lines of a run -/

/-- The line numbers at which the passes of the loop of `runProgram` are
made, in order, for at most `fuel` passes. -/
def linesExecuted (program : Program) : Nat → Machine → List Int
  | 0, _ => []
  | fuel + 1, m =>
    if m.currentLine ≠ -1 ∧ m.shouldEnd = false then
      m.currentLine ::
        (match loopBody program m with
        | .again m2 => linesExecuted program fuel m2
        | .leave _ => [])
    else []

/-- The accessor `getTargetLine` of `GotoStatement` and `IfStatement`; `none`
for the statements that have no target. -/
def Statement.getTargetLine : Statement → Option Int
  | .GotoStatement targetLine => some targetLine
  | .IfStatement _ _ _ targetLine => some targetLine
  | _ => none

/-! ## The state machine of section 4.6 of the specification -/

/-- The transition rule of the state machine of section 4.6 of the
specification, written from its words, on the run-time control signal of its
section 3 (current line, pending next line, termination flag): the parsed
statement of the current line is fetched (absent: no-op), the natural
successor is recorded as the default next line, the statement is executed; if
terminated, the machine halts; else if the next line is a line number that
does not exist in the table, the run fails with `LineNumberError`; else if the
next line is the sentinel `none` (written `-1`), the machine halts; else the
next line becomes the current line. The sentinel names no line, so the
existence test is applied to a next line other than the sentinel. -/
def specStep (program : Program) (m : Machine) : LoopResult :=
  let stmt := program.getParsedStatement m.currentLine
  let m1 := { m with nextLine := program.getNextLineNumber m.currentLine }
  let executed : Exec :=
    match stmt with
    | some s => s.execute m1
    | none => .done m1
  match executed with
  | .done m2 =>
    if m2.shouldEnd then .leave (.done m2)
    else if m2.nextLine ≠ -1 ∧ m2.nextLine ∉ program.sourceLines.keys then
      .leave (.raised .lineNumberError m2)
    else if m2.nextLine = -1 then .leave (.done m2)
    else .again { m2 with currentLine := m2.nextLine }
  | .raised e m2 => .leave (.raised e m2)
  | .starved m2 => .leave (.starved m2)

/-- The state machine of section 4.6 from the state Running at the current
line of `m`, for at most `fuel` steps. -/
def specLoop (program : Program) : Nat → Machine → Option Exec
  | 0, _ => none
  | fuel + 1, m =>
    match specStep program m with
    | .again m2 => specLoop program fuel m2
    | .leave r => some r

/-- The state machine of section 4.6 from its initial state: Running at the
first line, or immediately Halted if the table is empty. -/
def specRun (fuel : Nat) (program : Program) (m : Machine) : Option Exec :=
  if program.sourceLines.keys = [] then some (.done { m with shouldEnd := false })
  else specLoop program fuel (enterLoop program m)

/-- How a run ends: it halts, it fails with an error at a line, or it is
stuck in an `INPUT` without input. -/
inductive Outcome
  | halt
  | fail (e : ErrorException) (line : Int)
  | starve
  deriving DecidableEq

/-- What a run shows: its outcome, the final variable store, the output, and
the input left. -/
def Exec.observe : Exec → Outcome × EvalState × List String × List String
  | .done m => (.halt, m.state, m.output, m.input)
  | .raised e m => (.fail e m.currentLine, m.state, m.output, m.input)
  | .starved m => (.starve, m.state, m.output, m.input)

/-- The table whose only line is `10 INPUT X`. -/
def inputOnlyProgram : Program :=
  (Program.empty.addSourceLine 10 "10 INPUT X").setParsedStatement 10 (.InputStatement "X")

/-- A table in which the jump of line 10 goes to its natural successor:
`10 GOTO 20`, `20 PRINT 0`. -/
def gotoSuccessorProgram : Program :=
  (((Program.empty.addSourceLine 10 "10 GOTO 20").setParsedStatement 10
    (.GotoStatement 20)).addSourceLine 20 "20 PRINT 0").setParsedStatement 20
    (.PrintStatement (.Constant 0))

/-- A table whose line 20 divides by zero: `10 LET X = 1`, `20 PRINT X / 0`,
`30 PRINT X`. -/
def divideByZeroProgram : Program :=
  (((((Program.empty.addSourceLine 10 "10 LET X = 1").setParsedStatement 10
    (.LetStatement "X" (.Constant 1))).addSourceLine 20 "20 PRINT X / 0").setParsedStatement 20
    (.PrintStatement (.BinaryOp .divide (.VariableRef "X") (.Constant 0)))).addSourceLine 30
    "30 PRINT X").setParsedStatement 30 (.PrintStatement (.VariableRef "X"))

/-- A table without jumps: `10 LET X = 1`, `20 PRINT X`, `30 END`,
`40 PRINT X`. -/
def straightProgram : Program :=
  (((((((Program.empty.addSourceLine 10 "10 LET X = 1").setParsedStatement 10
    (.LetStatement "X" (.Constant 1))).addSourceLine 20 "20 PRINT X").setParsedStatement 20
    (.PrintStatement (.VariableRef "X"))).addSourceLine 30 "30 END").setParsedStatement 30
    .EndStatement).addSourceLine 40 "40 PRINT X").setParsedStatement 40
    (.PrintStatement (.VariableRef "X"))

/-- The table after the lines `10 REM`, `20 LET X 5`, `30 END`, `10` have been
entered: line 20 is stored without statement, line 10 is removed again. -/
def sessionProgram : Program :=
  (((((Program.empty.addSourceLine 10 "10 REM").setParsedStatement 10
    .RemStatement).addSourceLine 20 "20 LET X 5").addSourceLine 30 "30 END").setParsedStatement 30
    .EndStatement).removeSourceLine 10

/-! ## Lemmas on entry lists and iterators -/

theorem mem_entryKeys_insertEntries {α : Type} (k : Int) (v : α) (es : List (Int × α))
    (x : Int) : x ∈ entryKeys (insertEntries k v es) ↔ x = k ∨ x ∈ entryKeys es := by
  induction es with
  | nil => simp [insertEntries, entryKeys]
  | cons e rest ih =>
    obtain ⟨k', v'⟩ := e
    unfold insertEntries
    split_ifs with h1 h2
    · simp [entryKeys]
    · subst h2
      simp [entryKeys]
    · simp only [entryKeys, List.map_cons, List.mem_cons] at ih ⊢
      rw [ih]
      tauto

theorem mem_entryKeys_eraseEntries {α : Type} (k : Int) (es : List (Int × α)) (x : Int) :
    x ∈ entryKeys (eraseEntries k es) ↔ x ≠ k ∧ x ∈ entryKeys es := by
  simp only [entryKeys, eraseEntries, List.mem_map, List.mem_filter, decide_eq_true_eq]
  constructor
  · rintro ⟨e, ⟨he, hne⟩, rfl⟩
    exact ⟨hne, e, he, rfl⟩
  · rintro ⟨hne, e, he, rfl⟩
    exact ⟨e, ⟨he, hne⟩, rfl⟩

theorem dropWhile_ne_append {α : Type} (k : Int) (v : α) (pre rest : List (Int × α))
    (h : ∀ e ∈ pre, e.1 ≠ k) :
    (pre ++ (k, v) :: rest).dropWhile (fun e => decide (e.1 ≠ k)) = (k, v) :: rest := by
  induction pre with
  | nil => simp [List.dropWhile]
  | cons e pre ih =>
    have he : e.1 ≠ k := h e (List.mem_cons_self _ _)
    simp only [List.cons_append, List.dropWhile_cons, he, ne_eq, not_false_eq_true,
      decide_True, if_true]
    exact ih (fun e' he' => h e' (List.mem_cons_of_mem _ he'))

theorem dropWhile_ne_eq_nil {α : Type} (k : Int) (es : List (Int × α))
    (h : k ∉ entryKeys es) : es.dropWhile (fun e => decide (e.1 ≠ k)) = [] := by
  induction es with
  | nil => rfl
  | cons e rest ih =>
    simp only [entryKeys, List.map_cons, List.mem_cons, not_or] at h
    have he : e.1 ≠ k := fun hh => h.1 hh.symm
    simp only [List.dropWhile_cons, he, ne_eq, not_false_eq_true, decide_True, if_true]
    exact ih h.2

theorem exists_split_of_mem_entryKeys {α : Type} (k : Int) (es : List (Int × α))
    (h : k ∈ entryKeys es) :
    ∃ pre v rest, es = pre ++ (k, v) :: rest ∧ ∀ e ∈ pre, e.1 ≠ k := by
  induction es with
  | nil => simp [entryKeys] at h
  | cons e rest ih =>
    by_cases he : e.1 = k
    · refine ⟨[], e.2, rest, ?_, by simp⟩
      simp [← he]
    · simp only [entryKeys, List.map_cons, List.mem_cons] at h
      rcases h with h | h
      · exact absurd h.symm he
      · obtain ⟨pre, v, rest', hsplit, hpre⟩ := ih h
        refine ⟨e :: pre, v, rest', by simp [hsplit], ?_⟩
        intro e' he'
        rcases List.mem_cons.1 he' with h1 | h1
        · subst h1; exact he
        · exact hpre e' h1

/-- In an ascending entry list the entries before key `k` have smaller keys and
those after it have larger ones. -/
theorem keys_around_of_sorted {α : Type} (k : Int) (v : α) (pre rest : List (Int × α))
    (h : (entryKeys (pre ++ (k, v) :: rest)).Pairwise (fun a b => a < b)) :
    (∀ e ∈ pre, e.1 < k) ∧ (∀ e ∈ rest, k < e.1) ∧
      (entryKeys rest).Pairwise (fun a b => a < b) := by
  simp only [entryKeys, List.map_append, List.map_cons, List.pairwise_append,
    List.pairwise_cons, List.mem_map, List.mem_cons] at h
  obtain ⟨_, ⟨hk, hrest⟩, hcross⟩ := h
  refine ⟨?_, ?_, hrest⟩
  · intro e he
    exact hcross e.1 ⟨e, he, rfl⟩ k (Or.inl rfl)
  · intro e he
    exact hk e.1 ⟨e, he, rfl⟩

/-- The iterator `find(k)` of a stored key points at its entry. -/
theorem find_of_split {α : Type} (m : IntMap α) (k : Int) (v : α)
    (pre rest : List (Int × α)) (h : m.entries = pre ++ (k, v) :: rest) :
    m.find k = (k, v) :: rest := by
  unfold IntMap.find
  rw [h]
  apply dropWhile_ne_append
  intro e he
  have hs := m.ordered
  rw [h] at hs
  exact ne_of_lt ((keys_around_of_sorted k v pre rest hs).1 e he)

/-- The traversal from a stored line number visits it and every later entry. -/
theorem visitFrom_suffix (p : Program) (hsent : (-1 : Int) ∉ p.sourceLines.keys) :
    ∀ (rest pre : List (Int × String)) (k : Int) (v : String) (fuel : Nat),
      p.sourceLines.entries = pre ++ (k, v) :: rest → rest.length + 1 < fuel →
      visitFrom p fuel k = some (k :: entryKeys rest) := by
  intro rest
  induction rest with
  | nil =>
    intro pre k v fuel h hfuel
    have hk : k ≠ -1 := by
      rintro rfl
      apply hsent
      simp [IntMap.keys, entryKeys, h]
    obtain ⟨f, rfl⟩ : ∃ f, fuel = f + 2 := ⟨fuel - 2, by simp at hfuel; omega⟩
    simp [visitFrom, hk, Program.getNextLineNumber, find_of_split _ k v pre [] h, entryKeys]
  | cons e rest ih =>
    intro pre k v fuel h hfuel
    have hk : k ≠ -1 := by
      rintro rfl
      apply hsent
      simp [IntMap.keys, entryKeys, h]
    obtain ⟨f, rfl⟩ : ∃ f, fuel = f + 1 := ⟨fuel - 1, by omega⟩
    obtain ⟨k', v'⟩ := e
    have h' : p.sourceLines.entries = (pre ++ [(k, v)]) ++ (k', v') :: rest := by
      simp [h]
    have hrec := ih (pre ++ [(k, v)]) k' v' f h' (by simp at hfuel ⊢; omega)
    simp [visitFrom, hk, Program.getNextLineNumber, find_of_split _ k v pre _ h, hrec,
      entryKeys]

/-- On a table that does not store the sentinel `-1` as a line number, the
traversal visits the keys of `sourceLines` in their order. -/
theorem traversal_eq_keys (p : Program) (hsent : (-1 : Int) ∉ p.sourceLines.keys)
    (fuel : Nat) (hfuel : p.sourceLines.entries.length < fuel) :
    traversal fuel p = some p.sourceLines.keys := by
  unfold traversal Program.getFirstLineNumber IntMap.keys
  rcases hes : p.sourceLines.entries with _ | ⟨⟨k, v⟩, rest⟩
  · obtain ⟨f, rfl⟩ : ∃ f, fuel = f + 1 := ⟨fuel - 1, by omega⟩
    simp [visitFrom, entryKeys]
  · rw [hes] at hfuel
    have := visitFrom_suffix p hsent rest [] k v fuel (by simp [hes])
      (by simp at hfuel ⊢; omega)
    simpa [entryKeys] using this

theorem keys_addSourceLine (p : Program) (n : Int) (t : String) (x : Int) :
    x ∈ (p.addSourceLine n t).sourceLines.keys ↔ x = n ∨ x ∈ p.sourceLines.keys := by
  simp [Program.addSourceLine, IntMap.keys, IntMap.insert, mem_entryKeys_insertEntries]

theorem keys_addSourceLines (calls : List (Int × String)) :
    ∀ (p : Program) (x : Int), x ∈ (addSourceLines p calls).sourceLines.keys ↔
      x ∈ calls.map Prod.fst ∨ x ∈ p.sourceLines.keys := by
  induction calls with
  | nil => intro p x; simp [addSourceLines]
  | cons c calls ih =>
    intro p x
    have := ih (p.addSourceLine c.1 c.2) x
    simp only [addSourceLines, List.foldl_cons] at this ⊢
    rw [this, keys_addSourceLine]
    simp only [List.map_cons, List.mem_cons]
    tauto

theorem keys_nodup {α : Type} (m : IntMap α) : m.keys.Nodup :=
  m.ordered.imp (fun h => ne_of_lt h)


/-! ## Lookups after insertion and removal -/

theorem head_dropWhile_insertEntries_self {α : Type} (k : Int) (v : α) (es : List (Int × α)) :
    ((insertEntries k v es).dropWhile (fun e => decide (e.1 ≠ k))).head? = some (k, v) := by
  induction es with
  | nil => simp [insertEntries, List.dropWhile]
  | cons e rest ih =>
    obtain ⟨k', v'⟩ := e
    unfold insertEntries
    split_ifs with h1 h2
    · simp [List.dropWhile]
    · simp [List.dropWhile]
    · have hne : k' ≠ k := fun h => h2 h.symm
      simpa [List.dropWhile, hne] using ih

theorem head_dropWhile_insertEntries_ne {α : Type} (k j : Int) (v : α) (es : List (Int × α))
    (hj : j ≠ k) :
    ((insertEntries k v es).dropWhile (fun e => decide (e.1 ≠ j))).head? =
      (es.dropWhile (fun e => decide (e.1 ≠ j))).head? := by
  have hkj : k ≠ j := fun h => hj h.symm
  induction es with
  | nil => simp [insertEntries, List.dropWhile, hkj]
  | cons e rest ih =>
    obtain ⟨k', v'⟩ := e
    unfold insertEntries
    split_ifs with h1 h2
    · simp [List.dropWhile, hkj]
    · subst h2
      simp [List.dropWhile, hkj]
    · by_cases hk' : k' = j
      · simp [List.dropWhile, hk']
      · simpa [List.dropWhile, hk'] using ih

theorem head_dropWhile_eraseEntries {α : Type} (k j : Int) (es : List (Int × α)) :
    ((eraseEntries k es).dropWhile (fun e => decide (e.1 ≠ j))).head? =
      if j = k then none else (es.dropWhile (fun e => decide (e.1 ≠ j))).head? := by
  induction es with
  | nil => simp [eraseEntries]
  | cons e rest ih =>
    obtain ⟨k', v'⟩ := e
    unfold eraseEntries at ih ⊢
    by_cases hk : k' = k
    · subst hk
      by_cases hj : j = k'
      · subst hj
        simp [List.filter_cons]
      · have hj' : k' ≠ j := fun h => hj h.symm
        simpa [List.filter_cons, List.dropWhile, hj, hj'] using ih
    · by_cases hj : k' = j
      · subst hj
        simp [List.filter_cons, List.dropWhile, hk]
      · simpa [List.filter_cons, List.dropWhile, hk, hj] using ih

theorem getSourceLine_eq_head (p : Program) (n : Int) :
    p.getSourceLine n = (((p.sourceLines.find n).head?).map Prod.snd).getD "" := by
  unfold Program.getSourceLine
  rcases p.sourceLines.find n with _ | ⟨⟨k, v⟩, rest⟩ <;> rfl

theorem getParsedStatement_eq_head (p : Program) (n : Int) :
    p.getParsedStatement n = ((p.parsedStatements.find n).head?).map Prod.snd := by
  unfold Program.getParsedStatement
  rcases p.parsedStatements.find n with _ | ⟨⟨k, v⟩, rest⟩ <;> rfl

theorem getSourceLine_addSourceLine (p : Program) (n j : Int) (t : String) :
    (p.addSourceLine n t).getSourceLine j = if j = n then t else p.getSourceLine j := by
  simp only [getSourceLine_eq_head, Program.addSourceLine, IntMap.find, IntMap.insert]
  split_ifs with h
  · subst h
    rw [head_dropWhile_insertEntries_self]
    rfl
  · rw [head_dropWhile_insertEntries_ne _ _ _ _ h]

theorem getParsedStatement_addSourceLine (p : Program) (n j : Int) (t : String) :
    (p.addSourceLine n t).getParsedStatement j =
      if j = n then none else p.getParsedStatement j := by
  simp only [getParsedStatement_eq_head, Program.addSourceLine]
  by_cases hfind : (p.parsedStatements.find n).isEmpty = true
  · simp only [hfind, if_true]
    split_ifs with h
    · subst h
      rw [List.isEmpty_iff] at hfind
      rw [hfind]
      rfl
    · rfl
  · rw [if_neg hfind]
    simp only [IntMap.find, IntMap.erase]
    rw [head_dropWhile_eraseEntries]
    split_ifs <;> rfl

theorem getSourceLine_removeSourceLine (p : Program) (n j : Int) :
    (p.removeSourceLine n).getSourceLine j = if j = n then "" else p.getSourceLine j := by
  simp only [getSourceLine_eq_head, Program.removeSourceLine, IntMap.find, IntMap.erase]
  rw [head_dropWhile_eraseEntries]
  split_ifs <;> rfl

theorem getParsedStatement_removeSourceLine (p : Program) (n j : Int) :
    (p.removeSourceLine n).getParsedStatement j =
      if j = n then none else p.getParsedStatement j := by
  simp only [getParsedStatement_eq_head, Program.removeSourceLine]
  by_cases hfind : (p.parsedStatements.find n).isEmpty = true
  · simp only [hfind, if_true]
    split_ifs with h
    · subst h
      rw [List.isEmpty_iff] at hfind
      rw [hfind]
      rfl
    · rfl
  · rw [if_neg hfind]
    simp only [IntMap.find, IntMap.erase]
    rw [head_dropWhile_eraseEntries]
    split_ifs <;> rfl

theorem getSourceLine_setParsedStatement (p : Program) (n j : Int) (s : Statement) :
    (p.setParsedStatement n s).getSourceLine j = p.getSourceLine j := rfl

theorem getParsedStatement_setParsedStatement (p : Program) (n j : Int) (s : Statement) :
    (p.setParsedStatement n s).getParsedStatement j =
      if j = n then some s else p.getParsedStatement j := by
  simp only [getParsedStatement_eq_head, Program.setParsedStatement, IntMap.find, IntMap.insert]
  split_ifs with h
  · subst h
    rw [head_dropWhile_insertEntries_self]
    rfl
  · rw [head_dropWhile_insertEntries_ne _ _ _ _ h]

theorem keys_removeSourceLine (p : Program) (n x : Int) :
    x ∈ (p.removeSourceLine n).sourceLines.keys ↔ x ≠ n ∧ x ∈ p.sourceLines.keys := by
  simp [Program.removeSourceLine, IntMap.keys, IntMap.erase, mem_entryKeys_eraseEntries]

/-- A line number is a key of `sourceLines` exactly when `find` does not
return `end()`. -/
theorem find_eq_nil_iff {α : Type} (m : IntMap α) (k : Int) :
    m.find k = [] ↔ k ∉ m.keys := by
  constructor
  · intro h hk
    obtain ⟨pre, v, rest, hsplit, _⟩ := exists_split_of_mem_entryKeys k m.entries hk
    rw [find_of_split m k v pre rest hsplit] at h
    exact List.cons_ne_nil _ _ h
  · intro h
    exact dropWhile_ne_eq_nil k m.entries h

/-- Every line number the traversal visits is a key of `sourceLines`. -/
theorem getNextLineNumber_mem (p : Program) (n : Int) :
    p.getNextLineNumber n = -1 ∨ p.getNextLineNumber n ∈ p.sourceLines.keys := by
  by_cases hn : n ∈ p.sourceLines.keys
  · obtain ⟨pre, v, rest, hsplit, _⟩ := exists_split_of_mem_entryKeys n _ hn
    unfold Program.getNextLineNumber
    rw [find_of_split _ n v pre rest hsplit]
    rcases rest with _ | ⟨⟨k', v'⟩, rest'⟩
    · exact Or.inl rfl
    · right
      simp [IntMap.keys, entryKeys, hsplit]
  · left
    unfold Program.getNextLineNumber
    rw [(find_eq_nil_iff _ n).2 hn]

theorem getFirstLineNumber_mem (p : Program) :
    p.getFirstLineNumber = -1 ∨ p.getFirstLineNumber ∈ p.sourceLines.keys := by
  unfold Program.getFirstLineNumber IntMap.keys
  rcases p.sourceLines.entries with _ | ⟨⟨k, v⟩, rest⟩
  · exact Or.inl rfl
  · right
    simp [entryKeys]

theorem visitFrom_subset_keys (p : Program) :
    ∀ (fuel : Nat) (n : Int) (visited : List Int),
      (n = -1 ∨ n ∈ p.sourceLines.keys) → visitFrom p fuel n = some visited →
      ∀ x ∈ visited, x ∈ p.sourceLines.keys := by
  intro fuel
  induction fuel with
  | zero => intro n visited _ h; simp [visitFrom] at h
  | succ f ih =>
    intro n visited hn h x hx
    unfold visitFrom at h
    split_ifs at h with hne
    · rcases hrec : visitFrom p f (p.getNextLineNumber n) with _ | ls
      · simp [hrec] at h
      · simp only [hrec, Option.map_some', Option.some.injEq] at h
        subst h
        rcases List.mem_cons.1 hx with h1 | h1
        · subst h1
          exact hn.resolve_left hne
        · exact ih _ ls (getNextLineNumber_mem p n) hrec x h1
    · simp only [Option.some.injEq] at h
      subst h
      simp at hx

theorem traversal_subset_keys (p : Program) (fuel : Nat) (visited : List Int)
    (h : traversal fuel p = some visited) : ∀ x ∈ visited, x ∈ p.sourceLines.keys :=
  visitFrom_subset_keys p fuel _ visited (getFirstLineNumber_mem p) h


theorem IntMap.ext_entries {α : Type} (a b : IntMap α) (h : a.entries = b.entries) : a = b := by
  cases a
  cases b
  simp only [IntMap.mk.injEq]
  exact h

theorem eraseEntries_of_not_mem {α : Type} (k : Int) (es : List (Int × α))
    (h : k ∉ entryKeys es) : eraseEntries k es = es := by
  unfold eraseEntries
  rw [List.filter_eq_self]
  intro e he
  simp only [ne_eq, decide_eq_true_eq]
  intro hk
  exact h (List.mem_map.2 ⟨e, he, hk⟩)

/-! ## The run loop: general lemmas -/

/-- More passes do not change a result already reached. -/
theorem runLoop_add (p : Program) (k : Nat) :
    ∀ (fuel : Nat) (m : Machine) (r : Exec),
      runLoop p fuel m = some r → runLoop p (fuel + k) m = some r := by
  intro fuel
  induction fuel with
  | zero => intro m r h; simp [runLoop] at h
  | succ f ih =>
    intro m r h
    rw [Nat.add_right_comm]
    unfold runLoop at h ⊢
    split_ifs at h ⊢ with hc
    · cases hb : loopBody p m with
      | again m2 =>
        rw [hb] at h
        exact ih m2 r h
      | leave r2 =>
        rw [hb] at h
        exact h
    · exact h

theorem runLoop_mono (p : Program) (fuel fuel' : Nat) (m : Machine) (r : Exec)
    (h : runLoop p fuel m = some r) (hle : fuel ≤ fuel') : runLoop p fuel' m = some r := by
  obtain ⟨k, rfl⟩ := Nat.exists_eq_add_of_le hle
  exact runLoop_add p k fuel m r h

/-! ## Passes of the run loop -/

theorem runProgram_eq (p : Program) (m : Machine) (fuel : Nat) :
    runProgram fuel p m = runLoop p fuel (enterLoop p m) := rfl

theorem runLoop_succ (p : Program) (fuel : Nat) (m : Machine) :
    runLoop p (fuel + 1) m =
      if m.currentLine ≠ -1 ∧ m.shouldEnd = false then
        match loopBody p m with
        | .again m2 => runLoop p fuel m2
        | .leave r => some r
      else some (.done m) := rfl

theorem passes_succ (p : Program) (k : Nat) (m : Machine) :
    passes p (k + 1) m =
      if m.currentLine ≠ -1 ∧ m.shouldEnd = false then
        match loopBody p m with
        | .again m2 => passes p k m2
        | .leave _ => none
      else none := rfl

/-- After `k` complete passes the loop goes on as if started at the machine
reached. -/
theorem runLoop_of_passes (p : Program) :
    ∀ (k : Nat) (m mk : Machine), passes p k m = some mk →
      ∀ fuel, runLoop p (k + fuel) m = runLoop p fuel mk := by
  intro k
  induction k with
  | zero =>
    intro m mk h fuel
    simp only [passes, Option.some.injEq] at h
    subst h
    simp
  | succ k ih =>
    intro m mk h fuel
    rw [passes_succ] at h
    rw [Nat.add_right_comm, runLoop_succ]
    split_ifs at h ⊢ with hc
    cases hb : loopBody p m with
    | again m2 =>
      rw [hb] at h
      exact ih m2 mk h fuel
    | leave r =>
      rw [hb] at h
      simp at h

/-- Once a pass leaves the loop there are no later passes. -/
theorem passes_none_of_leave (p : Program) :
    ∀ (k : Nat) (m mk : Machine) (r : Exec), passes p k m = some mk →
      loopBody p mk = .leave r → ∀ j, k < j → passes p j m = none := by
  intro k
  induction k with
  | zero =>
    intro m mk r h hleave j hj
    simp only [passes, Option.some.injEq] at h
    subst h
    obtain ⟨i, rfl⟩ : ∃ i, j = i + 1 := ⟨j - 1, by omega⟩
    rw [passes_succ, hleave]
    split_ifs <;> rfl
  | succ k ih =>
    intro m mk r h hleave j hj
    obtain ⟨i, rfl⟩ : ∃ i, j = i + 1 := ⟨j - 1, by omega⟩
    rw [passes_succ] at h ⊢
    split_ifs at h ⊢ with hc
    cases hb : loopBody p m with
    | again m2 =>
      rw [hb] at h
      exact ih m2 mk r h hleave i (by omega)
    | leave r2 => rfl

theorem executeInput_frame (varName : String) :
    ∀ (input : List String) (m m' : Machine), executeInput varName input m = .done m' →
      m'.currentLine = m.currentLine ∧ m'.nextLine = m.nextLine ∧
        m'.shouldEnd = m.shouldEnd := by
  intro input
  induction input with
  | nil => intro m m' h; simp [executeInput] at h
  | cons line rest ih =>
    intro m m' h
    unfold executeInput at h
    split at h
    · simp only [Exec.done.injEq] at h
      subst h
      exact ⟨rfl, rfl, rfl⟩
    · have hrec := ih _ _ h
      exact hrec

/-- No statement changes `currentLine`; `END` alone changes `shouldEnd`, and
it leaves `nextLine` as it is. -/
theorem execute_frame (s : Statement) (m m' : Machine) (h : s.execute m = .done m') :
    m'.currentLine = m.currentLine ∧
      (m'.shouldEnd = m.shouldEnd ∨ m'.nextLine = m.nextLine) := by
  cases s with
  | RemStatement =>
    simp only [Statement.execute, Exec.done.injEq] at h
    subst h
    exact ⟨rfl, Or.inl rfl⟩
  | LetStatement varName exp =>
    simp only [Statement.execute] at h
    split at h
    · simp at h
    · simp only [Exec.done.injEq] at h
      subst h
      exact ⟨rfl, Or.inl rfl⟩
  | PrintStatement exp =>
    simp only [Statement.execute] at h
    split at h
    · simp at h
    · simp only [Exec.done.injEq] at h
      subst h
      exact ⟨rfl, Or.inl rfl⟩
  | InputStatement varName =>
    simp only [Statement.execute] at h
    obtain ⟨h1, _, h3⟩ := executeInput_frame varName _ _ _ h
    exact ⟨h1, Or.inl h3⟩
  | EndStatement =>
    simp only [Statement.execute, Exec.done.injEq] at h
    subst h
    exact ⟨rfl, Or.inr rfl⟩
  | GotoStatement targetLine =>
    simp only [Statement.execute, Exec.done.injEq] at h
    subst h
    exact ⟨rfl, Or.inl rfl⟩
  | IfStatement lhs op rhs targetLine =>
    simp only [Statement.execute] at h
    split at h
    · simp at h
    · split at h
      · simp at h
      · split_ifs at h
        all_goals
          simp only [Exec.done.injEq] at h
          subst h
          exact ⟨rfl, Or.inl rfl⟩

theorem executeCurrent_frame (p : Program) (m m' : Machine)
    (h : executeCurrent p m = .done m') :
    m'.currentLine = m.currentLine ∧
      (m'.shouldEnd = m.shouldEnd ∨ m'.nextLine = p.getNextLineNumber m.currentLine) := by
  simp only [executeCurrent] at h
  split at h
  · obtain ⟨h1, h2⟩ := execute_frame _ _ _ h
    exact ⟨h1, h2⟩
  · simp only [Exec.done.injEq] at h
    subst h
    exact ⟨rfl, Or.inl rfl⟩

/-- A pass that goes on leaves `shouldEnd` unset. -/
theorem loopBody_shouldEnd (p : Program) (m m2 : Machine)
    (h : loopBody p m = .again m2) (hm : m.shouldEnd = false) : m2.shouldEnd = false := by
  unfold loopBody at h
  split at h
  · rename_i m' hexec
    obtain ⟨hcur, hframe⟩ := executeCurrent_frame p m m' hexec
    unfold advance at h
    split_ifs at h with h1 h2 h3
    · simp only [LoopResult.again.injEq] at h
      subst h
      rcases hframe with hf | hf
      · simpa [hm] using hf
      · rw [hcur] at h1
        exact absurd hf h1.1
    · simp only [LoopResult.again.injEq] at h
      subst h
      simpa using h3
  · simp at h
  · simp at h

theorem passes_shouldEnd (p : Program) :
    ∀ (k : Nat) (m mk : Machine), passes p k m = some mk → m.shouldEnd = false →
      mk.shouldEnd = false := by
  intro k
  induction k with
  | zero =>
    intro m mk h hm
    simp only [passes, Option.some.injEq] at h
    subst h
    exact hm
  | succ k ih =>
    intro m mk h hm
    rw [passes_succ] at h
    split_ifs at h with hc
    cases hb : loopBody p m with
    | again m2 =>
      rw [hb] at h
      exact ih m2 mk h (loopBody_shouldEnd p m m2 hb hm)
    | leave r =>
      rw [hb] at h
      simp at h

/-! ## Errors raised during a pass -/

theorem eval_error (exp : Expression) (state : EvalState) (e : ErrorException)
    (h : exp.eval state = .error e) : e = .undefinedVariable ∨ e = .divisionByZero := by
  induction exp generalizing e with
  | Constant value => simp [Expression.eval] at h
  | VariableRef name =>
    simp only [Expression.eval, EvalState.getValue] at h
    split at h
    · simp at h
    · simp only [Except.error.injEq] at h
      exact Or.inl h.symm
  | BinaryOp op left right ihl ihr =>
    simp only [Expression.eval] at h
    split at h
    · rename_i e1 h1
      simp only [Except.error.injEq] at h
      subst h
      exact ihl _ h1
    · split at h
      · rename_i e2 h2
        simp only [Except.error.injEq] at h
        subst h
        exact ihr _ h2
      · cases op
        · simp at h
        · simp at h
        · simp at h
        · simp only at h
          split_ifs at h
          simp only [Except.error.injEq] at h
          exact Or.inr h.symm

theorem executeInput_not_raised (varName : String) :
    ∀ (input : List String) (m m' : Machine) (e : ErrorException),
      executeInput varName input m ≠ .raised e m' := by
  intro input
  induction input with
  | nil => intro m m' e h; simp [executeInput] at h
  | cons line rest ih =>
    intro m m' e h
    unfold executeInput at h
    split at h
    · simp at h
    · exact ih _ _ _ h

/-- A statement raises only the errors of expression evaluation. -/
theorem execute_raised (s : Statement) (m m' : Machine) (e : ErrorException)
    (h : s.execute m = .raised e m') : e = .undefinedVariable ∨ e = .divisionByZero := by
  cases s with
  | RemStatement => simp [Statement.execute] at h
  | LetStatement varName exp =>
    simp only [Statement.execute] at h
    split at h
    · rename_i e1 h1
      simp only [Exec.raised.injEq] at h
      rw [← h.1]
      exact eval_error _ _ _ h1
    · simp at h
  | PrintStatement exp =>
    simp only [Statement.execute] at h
    split at h
    · rename_i e1 h1
      simp only [Exec.raised.injEq] at h
      rw [← h.1]
      exact eval_error _ _ _ h1
    · simp at h
  | InputStatement varName =>
    simp only [Statement.execute] at h
    exact absurd h (executeInput_not_raised _ _ _ _ _)
  | EndStatement => simp [Statement.execute] at h
  | GotoStatement targetLine => simp [Statement.execute] at h
  | IfStatement lhs op rhs targetLine =>
    simp only [Statement.execute] at h
    split at h
    · rename_i e1 h1
      simp only [Exec.raised.injEq] at h
      rw [← h.1]
      exact eval_error _ _ _ h1
    · split at h
      · rename_i e2 h2
        simp only [Exec.raised.injEq] at h
        rw [← h.1]
        exact eval_error _ _ _ h2
      · split_ifs at h

theorem executeCurrent_raised (p : Program) (m m' : Machine) (e : ErrorException)
    (h : executeCurrent p m = .raised e m') : e ≠ .lineNumberError := by
  simp only [executeCurrent] at h
  split at h
  · rcases execute_raised _ _ _ _ h with rfl | rfl <;> decide
  · simp at h

/-- The text `getSourceLine` returns for a line number that is not stored is empty. -/
theorem getSourceLine_of_not_mem (p : Program) (n : Int) (h : n ∉ p.sourceLines.keys) :
    p.getSourceLine n = "" := by
  unfold Program.getSourceLine
  rw [(find_eq_nil_iff _ n).2 h]

/-- The text `getSourceLine` returns for a stored line number is the one stored with it. -/
theorem getSourceLine_mem (p : Program) (n : Int) (h : n ∈ p.sourceLines.keys) :
    (n, p.getSourceLine n) ∈ p.sourceLines.entries := by
  obtain ⟨pre, v, rest, hsplit, _⟩ := exists_split_of_mem_entryKeys n _ h
  unfold Program.getSourceLine
  rw [find_of_split _ n v pre rest hsplit, hsplit]
  simp

/-- The pass in which `runProgram` fails with `LINE NUMBER ERROR`. -/
theorem runLoop_lineNumberError (p : Program) :
    ∀ (fuel : Nat) (m m' : Machine),
      runLoop p fuel m = some (.raised .lineNumberError m') →
      ∃ (k : Nat) (mk : Machine), passes p k m = some mk ∧ mk.currentLine ≠ -1 ∧
        mk.shouldEnd = false ∧ executeCurrent p mk = .done m' ∧ m'.nextLine ≠ -1 ∧
        p.getSourceLine m'.nextLine = "" := by
  intro fuel
  induction fuel with
  | zero => intro m m' h; simp [runLoop] at h
  | succ f ih =>
    intro m m' h
    rw [runLoop_succ] at h
    split_ifs at h with hc
    · cases hb : loopBody p m with
      | again m2 =>
        rw [hb] at h
        obtain ⟨k, mk, hk, hrest⟩ := ih m2 m' h
        refine ⟨k + 1, mk, ?_, hrest⟩
        rw [passes_succ, if_pos hc, hb]
        exact hk
      | leave r =>
        rw [hb] at h
        simp only [Option.some.injEq] at h
        subst h
        refine ⟨0, m, rfl, hc.1, hc.2, ?_⟩
        unfold loopBody at hb
        split at hb
        · rename_i m2 hexec
          unfold advance at hb
          split_ifs at hb with h1 h2 h3
          · simp only [LoopResult.leave.injEq, Exec.raised.injEq, true_and] at hb
            subst hb
            exact ⟨hexec, h1.2, h2⟩
          · simp at hb
        · rename_i e m2 hexec
          simp only [LoopResult.leave.injEq, Exec.raised.injEq] at hb
          exact absurd hb.1 (executeCurrent_raised p m m2 e hexec)
        · simp at hb
    · simp at h

/-! ## The run on a table without lines -/

/-- On a table without stored lines `runProgram` returns at once. -/
theorem runProgram_of_no_lines (p : Program) (m : Machine) (fuel : Nat)
    (hempty : p.sourceLines.entries = []) (hfuel : 0 < fuel) :
    runProgram fuel p m = some (.done { m with currentLine := -1, shouldEnd := false }) := by
  obtain ⟨f, rfl⟩ : ∃ f, fuel = f + 1 := ⟨fuel - 1, by omega⟩
  have hfirst : p.getFirstLineNumber = -1 := by
    unfold Program.getFirstLineNumber
    rw [hempty]
  rw [runProgram_eq, runLoop_succ]
  simp [enterLoop, hfirst]

/-! ## C1: traversal order -/

/-- C1: for every finite sequence of `addSourceLine` calls on the empty
table with distinct line numbers, in any order, the traversal from
`getFirstLineNumber` by `getNextLineNumber` ends (any number of passes above
the number of calls suffices) and visits the stored line numbers, which are
strictly ascending and are exactly the line numbers of the calls, each once.
The line numbers of the specification are positive; the proof asks of them
only that none is `-1`, the value at which the traversal stops. -/
theorem traversal_addSourceLines_ascending (calls : List (Int × String))
    (hdistinct : (calls.map Prod.fst).Nodup) (hsent : ∀ c ∈ calls, c.1 ≠ -1)
    (fuel : Nat) (hfuel : calls.length < fuel) :
    traversal fuel (addSourceLines Program.empty calls) =
        some (addSourceLines Program.empty calls).sourceLines.keys ∧
      (addSourceLines Program.empty calls).sourceLines.keys.Pairwise (fun a b => a < b) ∧
      (addSourceLines Program.empty calls).sourceLines.keys.Perm (calls.map Prod.fst) := by
  have hmem : ∀ x, x ∈ (addSourceLines Program.empty calls).sourceLines.keys ↔
      x ∈ calls.map Prod.fst := by
    intro x
    rw [keys_addSourceLines]
    simp [Program.empty, IntMap.empty, IntMap.keys, entryKeys]
  have hperm : (addSourceLines Program.empty calls).sourceLines.keys.Perm
      (calls.map Prod.fst) :=
    (List.perm_ext_iff_of_nodup (keys_nodup _) hdistinct).2 hmem
  refine ⟨?_, (addSourceLines Program.empty calls).sourceLines.ordered, hperm⟩
  apply traversal_eq_keys
  · intro h
    obtain ⟨c, hc, hc1⟩ := List.mem_map.1 ((hmem _).1 h)
    exact hsent c hc hc1
  · have hlen := hperm.length_eq
    simp only [IntMap.keys, entryKeys, List.length_map] at hlen
    omega

/-- C1 on the example of the specification: inserting 30, 10, 20 yields the
traversal 10, 20, 30. -/
theorem traversal_addSourceLines_ascending_witness :
    traversal 4 (addSourceLines Program.empty
        [(30, "30 END"), (10, "10 REM"), (20, "20 REM")]) = some [10, 20, 30] ∧
      [10, 20, 30].Pairwise (fun (a b : Int) => a < b) ∧
      [10, 20, 30].Perm [(30 : Int), 10, 20] :=
  traversal_addSourceLines_ascending [(30, "30 END"), (10, "10 REM"), (20, "20 REM")]
    (by decide) (by decide) 4 (by decide)

/-! ## C2: the jump over line 30 -/

/-- C2: on the table holding `10 LET X = 5`, `20 IF X > 0 THEN 40`,
`30 PRINT X`, `40 PRINT 0`, `50 END` with their statements, from any machine
(any variable store), `runProgram` returns normally once four passes are
allowed; it has written exactly `0` and a newline, the store is the initial one
with `X` bound to 5, nothing was read, and no pass of the run is at line 30. -/
theorem runProgram_jumpOverProgram (m : Machine) (fuel : Nat) (hfuel : 4 ≤ fuel) :
    runProgram fuel jumpOverProgram m =
        some (.done
          { state := m.state.setValue "X" 5
            currentLine := 50
            nextLine := -1
            shouldEnd := true
            output := m.output ++ ["0\n"]
            input := m.input }) ∧
      ∀ (k : Nat) (mk : Machine),
        passes jumpOverProgram k (enterLoop jumpOverProgram m) = some mk →
        mk.currentLine ≠ 30 := by
  refine ⟨runLoop_mono _ 4 fuel _ _ rfl hfuel, ?_⟩
  intro k mk hk
  have h3 : passes jumpOverProgram 3 (enterLoop jumpOverProgram m) =
      some
        { state := m.state.setValue "X" 5
          currentLine := 50
          nextLine := 50
          shouldEnd := false
          output := m.output ++ ["0\n"]
          input := m.input } := rfl
  have hlast := passes_none_of_leave jumpOverProgram 3 _ _
    (.done
      { state := m.state.setValue "X" 5
        currentLine := 50
        nextLine := -1
        shouldEnd := true
        output := m.output ++ ["0\n"]
        input := m.input }) h3 rfl
  rcases k with _ | _ | _ | _ | k
  · have h0 : passes jumpOverProgram 0 (enterLoop jumpOverProgram m) =
        some (enterLoop jumpOverProgram m) := rfl
    rw [h0] at hk
    simp only [Option.some.injEq] at hk
    subst hk
    show (10 : Int) ≠ 30
    decide
  · have h1 : passes jumpOverProgram 1 (enterLoop jumpOverProgram m) =
        some
          { state := m.state.setValue "X" 5
            currentLine := 20
            nextLine := 20
            shouldEnd := false
            output := m.output
            input := m.input } := rfl
    rw [h1] at hk
    simp only [Option.some.injEq] at hk
    subst hk
    show (20 : Int) ≠ 30
    decide
  · have h2 : passes jumpOverProgram 2 (enterLoop jumpOverProgram m) =
        some
          { state := m.state.setValue "X" 5
            currentLine := 40
            nextLine := 40
            shouldEnd := false
            output := m.output
            input := m.input } := rfl
    rw [h2] at hk
    simp only [Option.some.injEq] at hk
    subst hk
    show (40 : Int) ≠ 30
    decide
  · rw [h3] at hk
    simp only [Option.some.injEq] at hk
    subst hk
    show (50 : Int) ≠ 30
    decide
  · rw [hlast (k + 4) (by omega)] at hk
    simp at hk

/-- C2 at the empty store with four passes: the output is `0`, `X` is 5. -/
theorem runProgram_jumpOverProgram_witness :
    runProgram 4 jumpOverProgram freshMachine =
      some (.done
        { state := EvalState.empty.setValue "X" 5
          currentLine := 50
          nextLine := -1
          shouldEnd := true
          output := ["0\n"]
          input := [] }) :=
  (runProgram_jumpOverProgram freshMachine 4 (by decide)).1

/-! ## C3: a jump to a line that is not stored -/

/-- C3: on the table whose only line is `10 GOTO 30`, from any machine (any
variable store), `runProgram` fails with `LINE NUMBER ERROR` in its first
pass, and the machine at the failure has the store, the output and the input
it had before the run. -/
theorem runProgram_danglingGotoProgram (m : Machine) (fuel : Nat) (hfuel : 1 ≤ fuel) :
    runProgram fuel danglingGotoProgram m =
      some (.raised .lineNumberError
        { state := m.state
          currentLine := 10
          nextLine := 30
          shouldEnd := false
          output := m.output
          input := m.input }) := by
  apply runLoop_mono _ 1 fuel _ _ _ hfuel
  rfl

/-- C3 at a store binding `X` to 7. -/
theorem runProgram_danglingGotoProgram_witness :
    runProgram 1 danglingGotoProgram ⟨EvalState.empty.setValue "X" 7, -1, -1, false, [], []⟩ =
      some (.raised .lineNumberError
        { state := EvalState.empty.setValue "X" 7
          currentLine := 10
          nextLine := 30
          shouldEnd := false
          output := []
          input := [] }) :=
  runProgram_danglingGotoProgram ⟨EvalState.empty.setValue "X" 7, -1, -1, false, [], []⟩ 1
    (by decide)

/-! ## C4: when the run fails with LINE NUMBER ERROR -/

/-- C4: for every program table and every machine (every store): some number
of passes makes `runProgram` fail with `LINE NUMBER ERROR` if and only if some
pass of the run, after executing the statement of its line, leaves the pending
next line naming a line number (a value other than `-1`, which stands for no
line) that is not a key of the program table. The tables are those whose
stored texts are non-empty, as every text is that `processLine` stores for a
line `main` passes to it (`feedLines_texts_nonempty`). -/
theorem runProgram_lineNumberError_iff (p : Program) (m : Machine)
    (htexts : ∀ e ∈ p.sourceLines.entries, e.2 ≠ "") :
    (∃ (fuel : Nat) (m' : Machine),
        runProgram fuel p m = some (.raised .lineNumberError m')) ↔
      ∃ (k : Nat) (mk m2 : Machine), passes p k (enterLoop p m) = some mk ∧
        mk.currentLine ≠ -1 ∧ mk.shouldEnd = false ∧ executeCurrent p mk = .done m2 ∧
        m2.nextLine ≠ -1 ∧ m2.nextLine ∉ p.sourceLines.keys := by
  constructor
  · rintro ⟨fuel, m', h⟩
    obtain ⟨k, mk, hk, hline, hflag, hexec, hnext, hsrc⟩ :=
      runLoop_lineNumberError p fuel _ m' h
    refine ⟨k, mk, m', hk, hline, hflag, hexec, hnext, ?_⟩
    intro hmem
    exact htexts _ (getSourceLine_mem p _ hmem) hsrc
  · rintro ⟨k, mk, m2, hk, hline, hflag, hexec, hnext, hkey⟩
    refine ⟨k + 1, m2, ?_⟩
    rw [runProgram_eq, runLoop_of_passes p k _ mk hk, runLoop_succ]
    have hne : m2.nextLine ≠ p.getNextLineNumber m2.currentLine := by
      intro heq
      rcases getNextLineNumber_mem p m2.currentLine with h | h
      · exact hnext (heq.trans h)
      · exact hkey (heq ▸ h)
    simp [hline, hflag, loopBody, hexec, advance, hne, hnext,
      getSourceLine_of_not_mem p _ hkey]

/-- C4 on the table `10 GOTO 30`: the first pass leaves the pending next line
at 30, which is not stored, and the run fails. -/
theorem runProgram_lineNumberError_iff_witness :
    (∀ e ∈ danglingGotoProgram.sourceLines.entries, e.2 ≠ "") ∧
    ((∃ (fuel : Nat) (m' : Machine),
        runProgram fuel danglingGotoProgram freshMachine =
          some (.raised .lineNumberError m')) ↔
      ∃ (k : Nat) (mk m2 : Machine),
        passes danglingGotoProgram k (enterLoop danglingGotoProgram freshMachine) = some mk ∧
        mk.currentLine ≠ -1 ∧ mk.shouldEnd = false ∧
        executeCurrent danglingGotoProgram mk = .done m2 ∧
        m2.nextLine ≠ -1 ∧ m2.nextLine ∉ danglingGotoProgram.sourceLines.keys) :=
  ⟨by decide, runProgram_lineNumberError_iff danglingGotoProgram freshMachine (by decide)⟩

/-! ## C5: first and next line number -/

/-- C5 (as stated, refuted): in the table storing lines 10 and 30,
`getNextLineNumber(20)` is `-1` although 30 is a stored line number greater
than 20: for a line number that is not stored the function returns `-1`. -/
theorem getNextLineNumber_unstored_counterexample :
    gapProgram.sourceLines.keys = [10, 30] ∧ gapProgram.getNextLineNumber 20 = -1 := by
  decide

/-- C5 (amended): for every program table and every integer `line`: when
`line` is a stored line number, `getNextLineNumber(line)` is the smallest
stored line number strictly greater than `line`, and `-1` when no stored line
number is greater; when `line` is not stored it is `-1`; `getFirstLineNumber`
is the smallest stored line number, and `-1` when the table is empty. -/
theorem getNextLineNumber_getFirstLineNumber_spec (p : Program) (line : Int) :
    (line ∈ p.sourceLines.keys →
      (∀ k ∈ p.sourceLines.keys, line < k →
        (∀ j ∈ p.sourceLines.keys, line < j → k ≤ j) → p.getNextLineNumber line = k) ∧
      ((∀ k ∈ p.sourceLines.keys, k ≤ line) → p.getNextLineNumber line = -1)) ∧
    (line ∉ p.sourceLines.keys → p.getNextLineNumber line = -1) ∧
    (∀ k ∈ p.sourceLines.keys, (∀ j ∈ p.sourceLines.keys, k ≤ j) →
      p.getFirstLineNumber = k) ∧
    (p.sourceLines.keys = [] → p.getFirstLineNumber = -1) := by
  refine ⟨?_, ?_, ?_, ?_⟩
  · intro hline
    obtain ⟨pre, v, rest, hsplit, _⟩ := exists_split_of_mem_entryKeys line _ hline
    have hs := p.sourceLines.ordered
    rw [hsplit] at hs
    obtain ⟨hpre, hrest, hsorted⟩ := keys_around_of_sorted line v pre rest hs
    have hkeys : ∀ x, x ∈ p.sourceLines.keys ↔
        (∃ e ∈ pre, e.1 = x) ∨ x = line ∨ ∃ e ∈ rest, e.1 = x := by
      intro x
      simp only [IntMap.keys, entryKeys, hsplit, List.map_append, List.map_cons,
        List.mem_append, List.mem_cons, List.mem_map]
    have hnext : p.getNextLineNumber line =
        match rest with
        | [] => -1
        | (next, _) :: _ => next := by
      unfold Program.getNextLineNumber
      rw [find_of_split _ line v pre rest hsplit]
      rcases rest with _ | ⟨⟨k', v'⟩, rest'⟩ <;> rfl
    rcases rest with _ | ⟨⟨k', v'⟩, rest'⟩
    · refine ⟨?_, fun _ => hnext⟩
      intro k hk hlt _
      rcases (hkeys k).1 hk with ⟨e, he, rfl⟩ | rfl | ⟨e, he, rfl⟩
      · have := hpre e he
        omega
      · omega
      · simp at he
    · simp only at hnext
      have hk'mem : k' ∈ p.sourceLines.keys :=
        (hkeys k').2 (Or.inr (Or.inr ⟨(k', v'), List.mem_cons_self _ _, rfl⟩))
      have hk'lt : line < k' := hrest (k', v') (List.mem_cons_self _ _)
      refine ⟨?_, ?_⟩
      · intro k hk hlt hleast
        rw [hnext]
        have h1 : k ≤ k' := hleast k' hk'mem hk'lt
        have h2 : k' ≤ k := by
          rcases (hkeys k).1 hk with ⟨e, he, rfl⟩ | rfl | ⟨e, he, rfl⟩
          · have := hpre e he
            omega
          · omega
          · rcases List.mem_cons.1 he with h | h
            · subst h
              exact le_refl _
            · simp only [entryKeys, List.map_cons, List.pairwise_cons, List.mem_map] at hsorted
              exact le_of_lt (hsorted.1 e.1 ⟨e, h, rfl⟩)
        omega
      · intro hall
        have := hall k' hk'mem
        omega
  · intro hline
    unfold Program.getNextLineNumber
    rw [(find_eq_nil_iff _ line).2 hline]
  · intro k hk hleast
    have hs := p.sourceLines.ordered
    unfold Program.getFirstLineNumber
    unfold IntMap.keys at hk hleast
    rcases hes : p.sourceLines.entries with _ | ⟨⟨k0, v0⟩, rest⟩
    · simp [hes, entryKeys] at hk
    · rw [hes] at hk hleast hs
      simp only [entryKeys, List.map_cons, List.mem_cons, List.pairwise_cons] at hk hleast hs
      have h1 : k ≤ k0 := hleast k0 (Or.inl rfl)
      rcases hk with rfl | hk
      · rfl
      · have := hs.1 k hk
        simp only
        omega
  · intro hempty
    unfold Program.getFirstLineNumber
    unfold IntMap.keys entryKeys at hempty
    rw [List.map_eq_nil_iff] at hempty
    rw [hempty]

/-! ## C6: adding and removing a line -/

/-- C6: for every program table, line number `n`, text `t` and statement
`s`: after `addSourceLine(n, t)` and `removeSourceLine(n)`, also with
`setParsedStatement(n, s)` in between, `n` is not a stored line
(`getSourceLine(n)` is empty, `n` is no key and no traversal visits it) and
`getParsedStatement(n)` is absent, while every other line keeps its text, its
parsed statement and its being stored or not; and on a table that, as the
tables `processLine` builds (`feedLines_parsed_subset`), holds a parsed
statement for stored lines only, `removeSourceLine(n)` for a line `n` that is
not stored returns the table unchanged. -/
theorem addSourceLine_removeSourceLine_spec (p : Program) (n : Int) (t : String)
    (s : Statement) :
    (((p.addSourceLine n t).removeSourceLine n).getSourceLine n = "" ∧
      n ∉ ((p.addSourceLine n t).removeSourceLine n).sourceLines.keys ∧
      (∀ (fuel : Nat) (visited : List Int),
        traversal fuel ((p.addSourceLine n t).removeSourceLine n) = some visited →
        n ∉ visited) ∧
      ((p.addSourceLine n t).removeSourceLine n).getParsedStatement n = none ∧
      ∀ j, j ≠ n →
        ((p.addSourceLine n t).removeSourceLine n).getSourceLine j = p.getSourceLine j ∧
        ((p.addSourceLine n t).removeSourceLine n).getParsedStatement j =
          p.getParsedStatement j ∧
        (j ∈ ((p.addSourceLine n t).removeSourceLine n).sourceLines.keys ↔
          j ∈ p.sourceLines.keys)) ∧
    ((((p.addSourceLine n t).setParsedStatement n s).removeSourceLine n).getSourceLine n = "" ∧
      n ∉ (((p.addSourceLine n t).setParsedStatement n s).removeSourceLine
        n).sourceLines.keys ∧
      (∀ (fuel : Nat) (visited : List Int),
        traversal fuel (((p.addSourceLine n t).setParsedStatement n s).removeSourceLine n) =
          some visited → n ∉ visited) ∧
      (((p.addSourceLine n t).setParsedStatement n s).removeSourceLine n).getParsedStatement n =
        none ∧
      ∀ j, j ≠ n →
        (((p.addSourceLine n t).setParsedStatement n s).removeSourceLine n).getSourceLine j =
          p.getSourceLine j ∧
        (((p.addSourceLine n t).setParsedStatement n s).removeSourceLine n).getParsedStatement j =
          p.getParsedStatement j ∧
        (j ∈ (((p.addSourceLine n t).setParsedStatement n s).removeSourceLine
            n).sourceLines.keys ↔ j ∈ p.sourceLines.keys)) ∧
    ((∀ k ∈ p.parsedStatements.keys, k ∈ p.sourceLines.keys) → n ∉ p.sourceLines.keys →
      p.removeSourceLine n = p) := by
  have hkeys1 : n ∉ ((p.addSourceLine n t).removeSourceLine n).sourceLines.keys := by
    rw [keys_removeSourceLine]
    simp
  have hkeys2 : n ∉ (((p.addSourceLine n t).setParsedStatement n s).removeSourceLine
      n).sourceLines.keys := by
    rw [keys_removeSourceLine]
    simp
  refine ⟨⟨?_, hkeys1, ?_, ?_, ?_⟩, ⟨?_, hkeys2, ?_, ?_, ?_⟩, ?_⟩
  · simp [getSourceLine_removeSourceLine]
  · intro fuel visited h hn
    exact hkeys1 (traversal_subset_keys _ fuel visited h n hn)
  · simp [getParsedStatement_removeSourceLine]
  · intro j hj
    refine ⟨?_, ?_, ?_⟩
    · simp [getSourceLine_removeSourceLine, getSourceLine_addSourceLine, hj]
    · simp [getParsedStatement_removeSourceLine, getParsedStatement_addSourceLine, hj]
    · rw [keys_removeSourceLine, keys_addSourceLine]
      tauto
  · simp [getSourceLine_removeSourceLine]
  · intro fuel visited h hn
    exact hkeys2 (traversal_subset_keys _ fuel visited h n hn)
  · simp [getParsedStatement_removeSourceLine]
  · intro j hj
    refine ⟨?_, ?_, ?_⟩
    · simp [getSourceLine_removeSourceLine, getSourceLine_setParsedStatement,
        getSourceLine_addSourceLine, hj]
    · simp [getParsedStatement_removeSourceLine, getParsedStatement_setParsedStatement,
        getParsedStatement_addSourceLine, hj]
    · rw [keys_removeSourceLine]
      have : ((p.addSourceLine n t).setParsedStatement n s).sourceLines =
          (p.addSourceLine n t).sourceLines := rfl
      rw [this, keys_addSourceLine]
      tauto
  · intro hinv hn
    have hfind : p.parsedStatements.find n = [] :=
      (find_eq_nil_iff _ n).2 (fun hk => hn (hinv n hk))
    have hsrc : p.sourceLines.erase n = p.sourceLines :=
      IntMap.ext_entries _ _ (eraseEntries_of_not_mem n _ hn)
    unfold Program.removeSourceLine
    simp only [hfind, List.isEmpty_nil, if_true, hsrc]

/-- C6 on the table of the five example lines: line 25 added and removed
again, also with a statement set in between, leaves the table as it was, and
so does removing line 25, which is not stored. -/
theorem addSourceLine_removeSourceLine_spec_witness :
    ((jumpOverProgram.addSourceLine 25 "25 END").removeSourceLine 25).sourceLines.keys =
      [10, 20, 30, 40, 50] ∧
    (((jumpOverProgram.addSourceLine 25 "25 END").setParsedStatement 25
      .EndStatement).removeSourceLine 25).getParsedStatement 25 = none ∧
    jumpOverProgram.removeSourceLine 25 = jumpOverProgram :=
  ⟨by decide,
    (addSourceLine_removeSourceLine_spec jumpOverProgram 25 "25 END" .EndStatement).2.1.2.2.2.1,
    (addSourceLine_removeSourceLine_spec jumpOverProgram 25 "25 END" .EndStatement).2.2
      (by decide) (by decide)⟩

/-! ## C7: re-adding a line -/

/-- C7: for every program table in which line `n` is stored (whatever its text
and parsed statement), after `addSourceLine(n, t2)` the text of `n` is `t2`
and `getParsedStatement(n)` is absent, so that a pass of the run loop at line
`n` executes no statement, until `setParsedStatement(n, s)` stores one again;
the text and parsed statement of every other line and the set of stored line
numbers are unchanged. -/
theorem addSourceLine_overwrites (p : Program) (n : Int) (t2 : String)
    (hstored : n ∈ p.sourceLines.keys) :
    (p.addSourceLine n t2).getSourceLine n = t2 ∧
    (p.addSourceLine n t2).getParsedStatement n = none ∧
    (∀ m : Machine, m.currentLine = n →
      executeCurrent (p.addSourceLine n t2) m =
        .done { m with nextLine := (p.addSourceLine n t2).getNextLineNumber n }) ∧
    (∀ s : Statement,
      ((p.addSourceLine n t2).setParsedStatement n s).getParsedStatement n = some s) ∧
    (∀ j, j ≠ n →
      (p.addSourceLine n t2).getSourceLine j = p.getSourceLine j ∧
      (p.addSourceLine n t2).getParsedStatement j = p.getParsedStatement j) ∧
    (∀ j, j ∈ (p.addSourceLine n t2).sourceLines.keys ↔ j ∈ p.sourceLines.keys) := by
  have hnone : (p.addSourceLine n t2).getParsedStatement n = none := by
    simp [getParsedStatement_addSourceLine]
  refine ⟨?_, hnone, ?_, ?_, ?_, ?_⟩
  · simp [getSourceLine_addSourceLine]
  · intro m hm
    unfold executeCurrent
    simp only [hm, hnone]
  · intro s
    simp [getParsedStatement_setParsedStatement]
  · intro j hj
    simp [getSourceLine_addSourceLine, getParsedStatement_addSourceLine, hj]
  · intro j
    rw [keys_addSourceLine]
    constructor
    · rintro (rfl | h)
      · exact hstored
      · exact h
    · exact Or.inr

/-- C7 on the example table: re-entering line 30, stored with `PRINT X`,
leaves it without a parsed statement. -/
theorem addSourceLine_overwrites_witness :
    (30 : Int) ∈ jumpOverProgram.sourceLines.keys ∧
    jumpOverProgram.getParsedStatement 30 = some (.PrintStatement (.VariableRef "X")) ∧
    (jumpOverProgram.addSourceLine 30 "30 REM").getSourceLine 30 = "30 REM" ∧
    (jumpOverProgram.addSourceLine 30 "30 REM").getParsedStatement 30 = none :=
  ⟨by decide, by decide,
    (addSourceLine_overwrites jumpOverProgram 30 "30 REM" (by decide)).1,
    (addSourceLine_overwrites jumpOverProgram 30 "30 REM" (by decide)).2.1⟩

/-! ## C8: CLEAR, and RUN on the empty table -/

/-- C8: for every program table and machine (every variable store), a line
whose first token is `CLEAR` makes `processLine` return with a program table
that has no source lines and no parsed statements and a variable store
without bindings, everything else unchanged; `runProgram` on any table without
stored lines returns at once, normally, with the same store, output and
input; so a following line whose first token is `RUN` makes `processLine`
return with the table and store still empty and nothing written. -/
theorem processLine_CLEAR_then_RUN (fe : FrontEnd) (line line2 : String)
    (program : Program) (m : Machine) (fuel : Nat)
    (hclear : (fe.setInput line).head? = some "CLEAR")
    (hrun : (fe.setInput line2).head? = some "RUN") :
    (∃ (program' : Program) (m' : Machine),
      processLine fe fuel line program m = some (.returned program' m') ∧
      program'.sourceLines.entries = [] ∧ program'.parsedStatements.entries = [] ∧
      (∀ var, m'.state.symbolTable var = none) ∧
      m'.output = m.output ∧ m'.input = m.input ∧
      ∃ m'' : Machine,
        processLine fe (fuel + 1) line2 program' m' = some (.returned program' m'') ∧
        (∀ var, m''.state.symbolTable var = none) ∧
        m''.output = m.output ∧ m''.input = m.input) ∧
    ∀ (p : Program) (m0 : Machine) (fuel0 : Nat), p.sourceLines.entries = [] → 0 < fuel0 →
      runProgram fuel0 p m0 =
        some (.done { m0 with currentLine := -1, shouldEnd := false }) := by
  have hint1 : isInteger "CLEAR" = false := by decide
  have hint2 : isInteger "RUN" = false := by decide
  refine ⟨⟨program.clear, { m with state := m.state.Clear }, ?_, rfl, rfl, fun _ => rfl, rfl,
    rfl, { m with state := m.state.Clear, currentLine := -1, shouldEnd := false }, ?_,
    fun _ => rfl, rfl, rfl⟩, fun p m0 fuel0 h1 h2 => runProgram_of_no_lines p m0 fuel0 h1 h2⟩
  · rcases hs : fe.setInput line with _ | ⟨token, rest⟩
    · simp [hs] at hclear
    · simp only [hs, List.head?_cons, Option.some.injEq] at hclear
      subst hclear
      simp [processLine, hs, TokenScanner.hasMoreTokens, TokenScanner.nextToken, hint1]
  · rcases hs : fe.setInput line2 with _ | ⟨token, rest⟩
    · simp [hs] at hrun
    · simp only [hs, List.head?_cons, Option.some.injEq] at hrun
      subst hrun
      have hr := runProgram_of_no_lines program.clear { m with state := m.state.Clear }
        (fuel + 1) rfl (Nat.succ_pos _)
      simp [processLine, hs, TokenScanner.hasMoreTokens, TokenScanner.nextToken, hint2, hr,
        LineExec.ofExec]

/-- C8 on the example table: `CLEAR` and then `RUN`. -/
theorem processLine_CLEAR_then_RUN_witness :
    (∃ (program' : Program) (m' : Machine),
      processLine blankFrontEnd 0 "CLEAR" jumpOverProgram freshMachine =
        some (.returned program' m') ∧
      program'.sourceLines.entries = [] ∧ program'.parsedStatements.entries = [] ∧
      (∀ var, m'.state.symbolTable var = none) ∧
      m'.output = freshMachine.output ∧ m'.input = freshMachine.input ∧
      ∃ m'' : Machine,
        processLine blankFrontEnd (0 + 1) "RUN" program' m' = some (.returned program' m'') ∧
        (∀ var, m''.state.symbolTable var = none) ∧
        m''.output = freshMachine.output ∧ m''.input = freshMachine.input) ∧
    ∀ (p : Program) (m0 : Machine) (fuel0 : Nat), p.sourceLines.entries = [] → 0 < fuel0 →
      runProgram fuel0 p m0 =
        some (.done { m0 with currentLine := -1, shouldEnd := false }) :=
  processLine_CLEAR_then_RUN blankFrontEnd "CLEAR" "RUN" jumpOverProgram freshMachine 0
    (by decide) (by decide)


/-! ## C9: END stops the run -/

/-- C9: for every program table and machine: when the run, after `k` complete
passes, is at a line (not `-1`) whose parsed statement is `END`, that pass is
the last one: no further pass exists, and with more than `k` passes allowed
`runProgram` returns normally with the variable store, the output and the
input exactly as they were when the pass at `END` began. -/
theorem runProgram_stops_at_EndStatement (p : Program) (m : Machine) (k : Nat)
    (mk : Machine) (hreach : passes p k (enterLoop p m) = some mk)
    (hline : mk.currentLine ≠ -1)
    (hend : p.getParsedStatement mk.currentLine = some .EndStatement)
    (fuel : Nat) (hfuel : k < fuel) :
    runProgram fuel p m =
        some (.done { mk with
          nextLine := p.getNextLineNumber mk.currentLine
          shouldEnd := true }) ∧
      ∀ j, k < j → passes p j (enterLoop p m) = none := by
  have hflag : mk.shouldEnd = false := passes_shouldEnd p k _ mk hreach rfl
  have hbody : loopBody p mk = .leave (.done { mk with
      nextLine := p.getNextLineNumber mk.currentLine
      shouldEnd := true }) := by
    simp [loopBody, executeCurrent, hend, Statement.execute, advance]
  refine ⟨?_, passes_none_of_leave p k _ mk _ hreach hbody⟩
  obtain ⟨f, rfl⟩ : ∃ f, fuel = k + (f + 1) := ⟨fuel - k - 1, by omega⟩
  rw [runProgram_eq, runLoop_of_passes p k _ mk hreach, runLoop_succ]
  simp [hline, hflag, hbody]

/-- C9 on the example table: after three passes the run is at line 50, whose
statement is `END`, and the run returns with the store and output of that
moment. -/
theorem runProgram_stops_at_EndStatement_witness :
    runProgram 4 jumpOverProgram freshMachine =
        some (.done
          { state := EvalState.empty.setValue "X" 5
            currentLine := 50
            nextLine := -1
            shouldEnd := true
            output := ["0\n"]
            input := [] }) ∧
      ∀ j, 3 < j → passes jumpOverProgram j (enterLoop jumpOverProgram freshMachine) = none :=
  runProgram_stops_at_EndStatement jumpOverProgram freshMachine 3
    { state := EvalState.empty.setValue "X" 5
      currentLine := 50
      nextLine := 50
      shouldEnd := false
      output := ["0\n"]
      input := [] }
    rfl (by decide) (by decide) 4 (by decide)

/-! ## C10: the conditional jump -/

/-- C10: for every machine on whose store both operands evaluate, to `l` and
`r`, executing a conditional jump with operator `=`, `<` or `>` and target `t`
returns normally and sets `nextLine` to `t` exactly when the comparison of `l`
with `r` holds, leaving it as it was otherwise; the variable store,
`shouldEnd`, `currentLine`, the output and the input are unchanged. -/
theorem IfStatement_execute (m : Machine) (lhs rhs : Expression) (op : String)
    (t l r : Int) (hl : lhs.eval m.state = .ok l) (hr : rhs.eval m.state = .ok r)
    (hop : op = "=" ∨ op = "<" ∨ op = ">") :
    (Statement.IfStatement lhs op rhs t).execute m =
      .done { m with
        nextLine :=
          if (op = "=" ∧ l = r) ∨ (op = "<" ∧ l < r) ∨ (op = ">" ∧ l > r) then t
          else m.nextLine } := by
  simp only [Statement.execute, hl, hr]
  rcases hop with rfl | rfl | rfl
  · by_cases h : l = r <;> simp [h]
  · by_cases h : l < r <;> simp [h]
  · by_cases h : l > r <;> simp [h]

/-- C10 at `IF X < 2 THEN 40` with `X` bound to 1: the pending next line
becomes 40. -/
theorem IfStatement_execute_witness :
    (Statement.IfStatement (.VariableRef "X") "<" (.Constant 2) 40).execute
        ⟨EvalState.empty.setValue "X" 1, 10, 20, false, [], []⟩ =
      .done ⟨EvalState.empty.setValue "X" 1, 10, 40, false, [], []⟩ :=
  IfStatement_execute ⟨EvalState.empty.setValue "X" 1, 10, 20, false, [], []⟩
    (.VariableRef "X") (.Constant 2) "<" 40 1 2 rfl rfl (Or.inr (Or.inl rfl))

/-! ## What a call of `processLine` does to the program table -/

/-- The token a line begins with, when it has one. -/
theorem nextToken_of_head (scanner : TokenScanner) (token : String)
    (h : scanner.head? = some token) : scanner.nextToken = (token, scanner.tail) := by
  rcases scanner with _ | ⟨t, rest⟩
  · simp at h
  · simp only [List.head?_cons, Option.some.injEq] at h
    subst h
    rfl

/-- The run raises only `LINE NUMBER ERROR` and the errors of evaluation. -/
theorem runLoop_raised (p : Program) :
    ∀ (fuel : Nat) (m m' : Machine) (e : ErrorException),
      runLoop p fuel m = some (.raised e m') →
      e = .lineNumberError ∨ e = .undefinedVariable ∨ e = .divisionByZero := by
  intro fuel
  induction fuel with
  | zero => intro m m' e h; simp [runLoop] at h
  | succ f ih =>
    intro m m' e h
    rw [runLoop_succ] at h
    split_ifs at h with hc
    · cases hb : loopBody p m with
      | again m2 =>
        rw [hb] at h
        exact ih m2 m' e h
      | leave r =>
        rw [hb] at h
        simp only [Option.some.injEq] at h
        subst h
        unfold loopBody at hb
        split at hb
        · unfold advance at hb
          split_ifs at hb
          · simp only [LoopResult.leave.injEq, Exec.raised.injEq] at hb
            exact Or.inl hb.1.symm
          · simp at hb
        · rename_i e2 m2 hexec
          simp only [LoopResult.leave.injEq, Exec.raised.injEq] at hb
          simp only [executeCurrent] at hexec
          split at hexec
          · rw [← hb.1]
            exact Or.inr (execute_raised _ _ _ _ hexec)
          · simp at hexec
        · simp at hb
    · simp at h

/-- The table a call of `processLine` leaves behind is the table it found,
the cleared table, or, for a line that begins with an integer token of value
`n`, the table after `removeSourceLine(n)`, after `addSourceLine(n, line)`, or
after `addSourceLine(n, line)` and `setParsedStatement(n, stmt)`. -/
theorem processLine_program (fe : FrontEnd) (fuel : Nat) (line : String) (p : Program)
    (m : Machine) (r : LineExec) (h : processLine fe fuel line p m = some r) :
    r.program = p ∨ r.program = p.clear ∨
      ∃ (token : String) (n : Int), (fe.setInput line).head? = some token ∧
        isInteger token = true ∧ stoi token = some n ∧
        (r.program = p.removeSourceLine n ∨ r.program = p.addSourceLine n line ∨
          ∃ stmt, r.program = (p.addSourceLine n line).setParsedStatement n stmt) := by
  rcases hs : fe.setInput line with _ | ⟨token, rest⟩
  · simp only [processLine, hs, TokenScanner.hasMoreTokens, List.isEmpty_nil, Bool.not_true,
      Bool.not_false, if_true, Option.some.injEq] at h
    subst h
    exact Or.inl rfl
  · simp only [processLine, hs, TokenScanner.hasMoreTokens, List.isEmpty_cons, Bool.not_false,
      Bool.not_true, Bool.false_eq_true, if_false, TokenScanner.nextToken] at h
    by_cases hint : isInteger token = true
    · simp only [hint, if_true] at h
      rcases hn : stoi token with _ | n
      · simp only [hn, Option.some.injEq] at h
        subst h
        exact Or.inl rfl
      · simp only [hn] at h
        right; right
        refine ⟨token, n, rfl, hint, hn, ?_⟩
        rcases rest with _ | ⟨cmd, rest2⟩
        · simp only [List.isEmpty_nil, Bool.not_true, Bool.not_false, if_true,
            Option.some.injEq] at h
          subst h
          exact Or.inl rfl
        · simp only [List.isEmpty_cons, Bool.not_false, Bool.not_true, Bool.false_eq_true,
            if_false] at h
          rcases hp : parseStatement fe rest2 cmd with t | ⟨stmt, sc⟩
          · rcases t with e | _
            all_goals
              simp only [hp, Option.some.injEq] at h
              subst h
              exact Or.inr (Or.inl rfl)
          · rcases stmt with _ | stmt
            · simp only [hp, Option.some.injEq] at h
              subst h
              exact Or.inr (Or.inl rfl)
            · simp only [hp, Option.some.injEq] at h
              subst h
              exact Or.inr (Or.inr ⟨stmt, rfl⟩)
    · simp only [hint, Bool.false_eq_true, if_false] at h
      split_ifs at h with h1 h2 h3 h4 h5
      · simp only [Option.some.injEq] at h
        subst h
        exact Or.inl rfl
      · rcases hl : listFrom p fuel p.getFirstLineNumber m with _ | m2
        · simp [hl] at h
        · simp only [hl, Option.map_some', Option.some.injEq] at h
          subst h
          exact Or.inl rfl
      · simp only [Option.some.injEq] at h
        subst h
        exact Or.inr (Or.inl rfl)
      · rcases hr : runProgram fuel p m with _ | r2
        · simp [hr] at h
        · simp only [hr, Option.map_some', Option.some.injEq] at h
          subst h
          left
          cases r2 <;> rfl
      · simp only [Option.some.injEq] at h
        subst h
        exact Or.inl rfl
      · rcases hp : parseStatement fe rest token with t | ⟨stmt, sc⟩
        · rcases t with e | _
          all_goals
            simp only [hp, Option.some.injEq] at h
            subst h
            exact Or.inl rfl
        · rcases stmt with _ | stmt
          · simp only [hp, Option.some.injEq] at h
            subst h
            exact Or.inl rfl
          · simp only [hp, Option.some.injEq] at h
            subst h
            left
            cases stmt.execute m <;> rfl

/-- The value `stoi` reads from a text without a minus sign is not negative. -/
theorem stoi_nonneg (str : String) (n : Int) (hminus : '-' ∉ str.toList)
    (h : stoi str = some n) : 0 ≤ n := by
  have hhead : (str.toList.dropWhile isspace).head? ≠ some '-' := by
    intro hh
    apply hminus
    have hmem : '-' ∈ str.toList.dropWhile isspace := List.mem_of_mem_head? hh
    exact (List.dropWhile_sublist _).subset hmem
  simp only [stoi, hhead, false_or, decide_False, Bool.false_eq_true, if_false] at h
  split_ifs at h
  all_goals
    simp only [Option.some.injEq] at h
    subst h
    exact Int.natCast_nonneg _

theorem keys_setParsedStatement (p : Program) (n : Int) (s : Statement) :
    (p.setParsedStatement n s).sourceLines.keys = p.sourceLines.keys := rfl

theorem parsedKeys_addSourceLine (p : Program) (n x : Int) (t : String) :
    x ∈ (p.addSourceLine n t).parsedStatements.keys ↔
      x ≠ n ∧ x ∈ p.parsedStatements.keys := by
  unfold Program.addSourceLine
  by_cases hfind : (p.parsedStatements.find n).isEmpty = true
  · simp only [hfind, if_true]
    have hn : n ∉ p.parsedStatements.keys :=
      (find_eq_nil_iff _ n).1 (List.isEmpty_iff.1 hfind)
    constructor
    · intro hx
      exact ⟨fun hxn => hn (hxn ▸ hx), hx⟩
    · exact fun hx => hx.2
  · rw [if_neg hfind]
    simp [IntMap.keys, IntMap.erase, mem_entryKeys_eraseEntries]

theorem parsedKeys_removeSourceLine (p : Program) (n x : Int) :
    x ∈ (p.removeSourceLine n).parsedStatements.keys ↔
      x ≠ n ∧ x ∈ p.parsedStatements.keys := by
  unfold Program.removeSourceLine
  by_cases hfind : (p.parsedStatements.find n).isEmpty = true
  · simp only [hfind, if_true]
    have hn : n ∉ p.parsedStatements.keys :=
      (find_eq_nil_iff _ n).1 (List.isEmpty_iff.1 hfind)
    constructor
    · intro hx
      exact ⟨fun hxn => hn (hxn ▸ hx), hx⟩
    · exact fun hx => hx.2
  · rw [if_neg hfind]
    simp [IntMap.keys, IntMap.erase, mem_entryKeys_eraseEntries]

theorem parsedKeys_setParsedStatement (p : Program) (n x : Int) (s : Statement) :
    x ∈ (p.setParsedStatement n s).parsedStatements.keys ↔
      x = n ∨ x ∈ p.parsedStatements.keys := by
  simp [Program.setParsedStatement, IntMap.keys, IntMap.insert, mem_entryKeys_insertEntries]

/-- An entry of an entry list after an insertion is the one inserted or one
of the list. -/
theorem mem_insertEntries {α : Type} (k : Int) (v : α) :
    ∀ (es : List (Int × α)) (e : Int × α),
      e ∈ insertEntries k v es → e = (k, v) ∨ e ∈ es := by
  intro es
  induction es with
  | nil =>
    intro e he
    simpa [insertEntries] using he
  | cons e0 rest ih =>
    intro e he
    obtain ⟨k', v'⟩ := e0
    unfold insertEntries at he
    split_ifs at he with h1 h2
    · simp only [List.mem_cons] at he ⊢
      tauto
    · simp only [List.mem_cons] at he ⊢
      tauto
    · simp only [List.mem_cons] at he ⊢
      rcases he with he | he
      · tauto
      · rcases ih e he with h | h
        · tauto
        · tauto

/-- A call of `processLine` on a line that is not empty stores no empty text:
the text stored is the line itself. -/
theorem processLine_texts_nonempty (fe : FrontEnd) (fuel : Nat) (line : String) (p : Program)
    (m : Machine) (r : LineExec) (h : processLine fe fuel line p m = some r)
    (hline : line ≠ "") (hp : ∀ e ∈ p.sourceLines.entries, e.2 ≠ "") :
    ∀ e ∈ r.program.sourceLines.entries, e.2 ≠ "" := by
  have hadd : ∀ n, ∀ e ∈ (p.addSourceLine n line).sourceLines.entries, e.2 ≠ "" := by
    intro n e he
    rcases mem_insertEntries n line _ e he with h1 | h1
    · rw [h1]
      exact hline
    · exact hp e h1
  intro x hx
  rcases processLine_program fe fuel line p m r h with h1 | h1 | ⟨token, n, _, _, _, h1⟩
  · rw [h1] at hx
    exact hp x hx
  · rw [h1] at hx
    simp [Program.clear, IntMap.empty] at hx
  · rcases h1 with h1 | h1 | ⟨stmt, h1⟩
    · rw [h1] at hx
      exact hp x (List.mem_of_mem_filter hx)
    · rw [h1] at hx
      exact hadd n x hx
    · rw [h1] at hx
      exact hadd n x hx

/-- The tables built by `processLine` from lines that are not empty, the only
ones `main` passes to it, store no empty text. -/
theorem feedLines_texts_nonempty (fe : FrontEnd) (fuel : Nat) :
    ∀ (lines : List String) (p : Program) (m : Machine) (p' : Program) (m' : Machine),
      (∀ line ∈ lines, line ≠ "") → (∀ e ∈ p.sourceLines.entries, e.2 ≠ "") →
      feedLines fe fuel lines p m = some (p', m') →
      ∀ e ∈ p'.sourceLines.entries, e.2 ≠ "" := by
  intro lines
  induction lines with
  | nil =>
    intro p m p' m' _ hp h
    simp only [feedLines, Option.some.injEq, Prod.mk.injEq] at h
    rw [← h.1]
    exact hp
  | cons line rest ih =>
    intro p m p' m' hlines hp h
    unfold feedLines at h
    rcases hr : processLine fe fuel line p m with _ | r
    · simp [hr] at h
    · simp only [hr] at h
      have hr' := processLine_texts_nonempty fe fuel line p m r hr
        (hlines line (List.mem_cons_self _ _)) hp
      split_ifs at h
      · exact ih r.program r.machine p' m' (fun l hl => hlines l (List.mem_cons_of_mem _ hl))
          hr' h
      · simp only [Option.some.injEq, Prod.mk.injEq] at h
        rw [← h.1]
        exact hr'

/-! ## C11: the line number of a conditional jump -/

/-- C11 (the code at the failing input): for every front end, when both
operands of an `IF` are read, the token between them is `=`, `<` or `>`, the
token after the right operand is `THEN`, and the token after `THEN` is one
that `std::stoi` rejects (the empty token of a stream that has ended, or a
token that is no number), `parseStatement` does not fail with
`SYNTAX ERROR`: the exception of `std::stoi` leaves it. -/
theorem parseStatement_IF_line_number_unchecked (fe : FrontEnd)
    (scanner scanner2 rest : TokenScanner) (lhs rhs : Expression) (op : String)
    (hlhs : fe.readE scanner 1 = .ok (lhs, op :: scanner2))
    (hop : op = "=" ∨ op = "<" ∨ op = ">")
    (hrhs : fe.readE scanner2 1 = .ok (rhs, "THEN" :: rest))
    (hline : stoi rest.nextToken.1 = none) :
    parseStatement fe scanner "IF" = .error .stdException := by
  have hne : ¬(op ≠ "=" ∧ op ≠ "<" ∧ op ≠ ">") := by
    rcases hop with h | h | h <;> simp [h]
  unfold TokenScanner.nextToken at hline
  simp [parseStatement, hlhs, TokenScanner.nextToken, hne, hrhs, hline]

/-- C11 at `IF X = 1 THEN`, where the line number is missing, and at
`IF X = 1 THEN ABC`; with a line number the statement is returned, and a wrong
operator or a missing `THEN` fail with `SYNTAX ERROR`. -/
theorem parseStatement_IF_line_number_unchecked_witness :
    parseStatement operandFrontEnd ["X", "=", "1", "THEN"] "IF" = .error .stdException ∧
    parseStatement operandFrontEnd ["X", "=", "1", "THEN", "ABC"] "IF" =
      .error .stdException ∧
    parseStatement operandFrontEnd ["X", "=", "1", "THEN", "40"] "IF" =
      .ok (some (.IfStatement (.VariableRef "X") "=" (.Constant 1) 40), []) ∧
    parseStatement operandFrontEnd ["X", "#", "1", "THEN", "40"] "IF" =
      .error (.error .syntaxError) ∧
    parseStatement operandFrontEnd ["X", "=", "1", "40"] "IF" =
      .error (.error .syntaxError) :=
  ⟨parseStatement_IF_line_number_unchecked operandFrontEnd ["X", "=", "1", "THEN"]
      ["1", "THEN"] [] (.VariableRef "X") (.Constant 1) "=" rfl (Or.inl rfl) rfl (by decide),
    parseStatement_IF_line_number_unchecked operandFrontEnd ["X", "=", "1", "THEN", "ABC"]
      ["1", "THEN", "ABC"] ["ABC"] (.VariableRef "X") (.Constant 1) "=" rfl (Or.inl rfl) rfl
      (by decide),
    rfl, rfl, rfl⟩

/-! ## C12: the line numbers stored by `processLine` -/

/-- C12 (as stated, refuted): the line `0 REM` on the empty table stores line
number 0, which is not greater than 0; and when the scanner hands over an
integer token with a minus sign, which `isInteger` accepts, as for `-5 REM`
split at blanks, a negative line number is stored. -/
theorem processLine_line_zero_counterexample :
    (blankFrontEnd.setInput "0 REM" = ["0", "REM"] ∧
      processLine blankFrontEnd 0 "0 REM" Program.empty freshMachine =
        some (.returned
          ((Program.empty.addSourceLine 0 "0 REM").setParsedStatement 0 .RemStatement)
          freshMachine) ∧
      ((Program.empty.addSourceLine 0 "0 REM").setParsedStatement 0
        .RemStatement).sourceLines.keys = [0]) ∧
    (blankFrontEnd.setInput "-5 REM" = ["-5", "REM"] ∧ isInteger "-5" = true ∧
      processLine blankFrontEnd 0 "-5 REM" Program.empty freshMachine =
        some (.returned
          ((Program.empty.addSourceLine (-5) "-5 REM").setParsedStatement (-5) .RemStatement)
          freshMachine) ∧
      ((Program.empty.addSourceLine (-5) "-5 REM").setParsedStatement (-5)
        .RemStatement).sourceLines.keys = [-5]) := by
  refine ⟨⟨by decide, rfl, by decide⟩, by decide, by decide, rfl, by decide⟩

/-- The line numbers a call of `processLine` adds are not negative when the
line does not begin with an integer token that has a minus sign. -/
theorem processLine_keys_nonneg (fe : FrontEnd) (fuel : Nat) (line : String) (p : Program)
    (m : Machine) (r : LineExec) (h : processLine fe fuel line p m = some r)
    (hunsigned : ∀ token ∈ (fe.setInput line).head?, isInteger token = true →
      '-' ∉ token.toList)
    (hp : ∀ n ∈ p.sourceLines.keys, 0 ≤ n) :
    ∀ n ∈ r.program.sourceLines.keys, 0 ≤ n := by
  intro x hx
  rcases processLine_program fe fuel line p m r h with h1 | h1 | ⟨token, n, ht, hint, hn, h1⟩
  · rw [h1] at hx
    exact hp x hx
  · rw [h1] at hx
    simp [Program.clear, IntMap.empty, IntMap.keys, entryKeys] at hx
  · have hn0 : 0 ≤ n := stoi_nonneg token n (hunsigned token ht hint) hn
    rcases h1 with h1 | h1 | ⟨stmt, h1⟩
    · rw [h1, keys_removeSourceLine] at hx
      exact hp x hx.2
    · rw [h1, keys_addSourceLine] at hx
      rcases hx with rfl | hx
      · exact hn0
      · exact hp x hx
    · rw [h1, keys_setParsedStatement, keys_addSourceLine] at hx
      rcases hx with rfl | hx
      · exact hn0
      · exact hp x hx

theorem feedLines_keys_nonneg (fe : FrontEnd) (fuel : Nat) :
    ∀ (lines : List String) (p : Program) (m : Machine) (p' : Program) (m' : Machine),
      (∀ line ∈ lines, ∀ token ∈ (fe.setInput line).head?, isInteger token = true →
        '-' ∉ token.toList) →
      (∀ n ∈ p.sourceLines.keys, 0 ≤ n) → feedLines fe fuel lines p m = some (p', m') →
      ∀ n ∈ p'.sourceLines.keys, 0 ≤ n := by
  intro lines
  induction lines with
  | nil =>
    intro p m p' m' _ hp h
    simp only [feedLines, Option.some.injEq, Prod.mk.injEq] at h
    rw [← h.1]
    exact hp
  | cons line rest ih =>
    intro p m p' m' hunsigned hp h
    unfold feedLines at h
    rcases hr : processLine fe fuel line p m with _ | r
    · simp [hr] at h
    · simp only [hr] at h
      have hr' := processLine_keys_nonneg fe fuel line p m r hr
        (hunsigned line (List.mem_cons_self _ _)) hp
      split_ifs at h
      · exact ih r.program r.machine p' m'
          (fun l hl => hunsigned l (List.mem_cons_of_mem _ hl)) hr' h
      · simp only [Option.some.injEq, Prod.mk.injEq] at h
        rw [← h.1]
        exact hr'

/-- C12 (amended): for every front end and every sequence of input lines fed
to `processLine` starting from the empty program table, none of which begins
with an integer token that has a minus sign, every line number stored in the
program table is a non-negative integer. -/
theorem feedLines_lineNumbers_nonneg (fe : FrontEnd) (fuel : Nat) (lines : List String)
    (m : Machine) (p' : Program) (m' : Machine)
    (hunsigned : ∀ line ∈ lines, ∀ token ∈ (fe.setInput line).head?,
      isInteger token = true → '-' ∉ token.toList)
    (h : feedLines fe fuel lines Program.empty m = some (p', m')) :
    ∀ n ∈ p'.sourceLines.keys, 0 ≤ n := by
  apply feedLines_keys_nonneg fe fuel lines Program.empty m p' m' hunsigned _ h
  intro n hn
  simp [Program.empty, IntMap.empty, IntMap.keys, entryKeys] at hn

/-- C12 (amended) on the lines `20 END`, `0 REM`, `10 LET X 5`, `20`: the
table then stores the line numbers 0 and 10. -/
theorem feedLines_lineNumbers_nonneg_witness :
    feedLines blankFrontEnd 0 ["20 END", "0 REM", "10 LET X 5", "20"] Program.empty
        freshMachine =
      some (((((Program.empty.addSourceLine 20 "20 END").setParsedStatement 20
        .EndStatement).addSourceLine 0 "0 REM").setParsedStatement 0
        .RemStatement).addSourceLine 10 "10 LET X 5" |>.removeSourceLine 20, freshMachine) ∧
    (((((Program.empty.addSourceLine 20 "20 END").setParsedStatement 20
      .EndStatement).addSourceLine 0 "0 REM").setParsedStatement 0
      .RemStatement).addSourceLine 10 "10 LET X 5" |>.removeSourceLine 20).sourceLines.keys =
      [0, 10] ∧
    ∀ n ∈ (((((Program.empty.addSourceLine 20 "20 END").setParsedStatement 20
      .EndStatement).addSourceLine 0 "0 REM").setParsedStatement 0
      .RemStatement).addSourceLine 10 "10 LET X 5" |>.removeSourceLine 20).sourceLines.keys,
      0 ≤ n :=
  ⟨rfl, by decide,
    feedLines_lineNumbers_nonneg blankFrontEnd 0 ["20 END", "0 REM", "10 LET X 5", "20"]
      freshMachine _ freshMachine (by decide) rfl⟩

/-! ## C13: a line that fails to parse -/

/-- C13 (as stated, refuted): on the table of the five example lines, the
line `10 LET X 5` fails with `SYNTAX ERROR`, and afterwards line 10 has the
new text and no parsed statement, where before it had the text `10 LET X = 5`
and its assignment. -/
theorem processLine_syntaxError_counterexample :
    processLine blankFrontEnd 0 "10 LET X 5" jumpOverProgram freshMachine =
      some (.raised .syntaxError (jumpOverProgram.addSourceLine 10 "10 LET X 5")
        freshMachine) ∧
    jumpOverProgram.getSourceLine 10 = "10 LET X = 5" ∧
    jumpOverProgram.getParsedStatement 10 = some (.LetStatement "X" (.Constant 5)) ∧
    (jumpOverProgram.addSourceLine 10 "10 LET X 5").getSourceLine 10 = "10 LET X 5" ∧
    (jumpOverProgram.addSourceLine 10 "10 LET X 5").getParsedStatement 10 = none := by
  refine ⟨rfl, by decide, by decide, by decide, by decide⟩

/-- C13 (amended): for every front end, program table, machine and input
line on which `processLine` fails with `SYNTAX ERROR`: the machine, and with
it the variable store, is the one before the call; when the line does not
begin with an integer token the program table is the one before the call; and
when it begins with an integer token of value `n`, the program table is the
one before the call after `addSourceLine(n, line)`: line `n` is stored with
the text of the line and without parsed statement, and every other line has
the text and the parsed statement it had. -/
theorem processLine_syntaxError (fe : FrontEnd) (fuel : Nat) (line : String)
    (p : Program) (m : Machine) (p' : Program) (m' : Machine)
    (h : processLine fe fuel line p m = some (.raised .syntaxError p' m')) :
    m' = m ∧
      ∃ token, (fe.setInput line).head? = some token ∧
        ((isInteger token = false ∧ p' = p) ∨
          (isInteger token = true ∧ ∃ n, stoi token = some n ∧
            p' = p.addSourceLine n line ∧ p'.getSourceLine n = line ∧
            p'.getParsedStatement n = none ∧
            ∀ j, j ≠ n → p'.getSourceLine j = p.getSourceLine j ∧
              p'.getParsedStatement j = p.getParsedStatement j)) := by
  rcases hs : fe.setInput line with _ | ⟨token, rest⟩
  · simp [processLine, hs, TokenScanner.hasMoreTokens] at h
  · simp only [processLine, hs, TokenScanner.hasMoreTokens, List.isEmpty_cons, Bool.not_false,
      Bool.not_true, Bool.false_eq_true, if_false, TokenScanner.nextToken] at h
    by_cases hint : isInteger token = true
    · simp only [hint, if_true] at h
      rcases hn : stoi token with _ | n
      · simp [hn] at h
      · simp only [hn] at h
        rcases rest with _ | ⟨cmd, rest2⟩
        · simp at h
        · simp only [List.isEmpty_cons, Bool.not_false, Bool.not_true, Bool.false_eq_true,
            if_false] at h
          rcases hp : parseStatement fe rest2 cmd with t | ⟨stmt, sc⟩
          · rcases t with e | _
            · simp only [hp, Option.some.injEq, LineExec.raised.injEq] at h
              obtain ⟨_, h2, h3⟩ := h
              subst h2
              subst h3
              refine ⟨rfl, token, rfl, Or.inr ⟨hint, n, hn, rfl, ?_, ?_, ?_⟩⟩
              · simp [getSourceLine_addSourceLine]
              · simp [getParsedStatement_addSourceLine]
              · intro j hj
                simp [getSourceLine_addSourceLine, getParsedStatement_addSourceLine, hj]
            · simp [hp] at h
          · rcases stmt with _ | stmt <;> simp [hp] at h
    · simp only [hint, Bool.false_eq_true, if_false] at h
      have hint' : isInteger token = false := by simpa using hint
      split_ifs at h with h1 h2 h3 h4 h5
      · simp at h
      · rcases hl : listFrom p fuel p.getFirstLineNumber m with _ | m2 <;> simp [hl] at h
      · simp at h
      · rcases hr : runProgram fuel p m with _ | r2
        · simp [hr] at h
        · rcases r2 with m2 | ⟨e, m2⟩ | m2
          · simp [hr, LineExec.ofExec] at h
          · simp only [hr, Option.map_some', LineExec.ofExec, Option.some.injEq,
              LineExec.raised.injEq] at h
            have := runLoop_raised p fuel _ m2 e hr
            rw [h.1] at this
            simp at this
          · simp [hr, LineExec.ofExec] at h
      · simp at h
      · rcases hp : parseStatement fe rest token with t | ⟨stmt, sc⟩
        · rcases t with e | _
          · simp only [hp, Option.some.injEq, LineExec.raised.injEq] at h
            obtain ⟨_, h2, h3⟩ := h
            exact ⟨h3.symm, token, rfl, Or.inl ⟨hint', h2.symm⟩⟩
          · simp [hp] at h
        · rcases stmt with _ | stmt
          · simp [hp] at h
          · simp only [hp, Option.some.injEq] at h
            rcases hx : stmt.execute m with m2 | ⟨e, m2⟩ | m2
            · simp [hx, LineExec.ofExec] at h
            · simp only [hx, LineExec.ofExec, LineExec.raised.injEq] at h
              have := execute_raised stmt m m2 e hx
              rw [h.1] at this
              simp at this
            · simp [hx, LineExec.ofExec] at h

/-- C13 (amended) on `10 LET X 5` entered on the table of the five example
lines: the line begins with the integer token `10`, and the table afterwards
is the one after `addSourceLine(10, line)`. -/
theorem processLine_syntaxError_witness :
    processLine blankFrontEnd 0 "10 LET X 5" jumpOverProgram freshMachine =
      some (.raised .syntaxError (jumpOverProgram.addSourceLine 10 "10 LET X 5")
        freshMachine) ∧
    ∃ token, (blankFrontEnd.setInput "10 LET X 5").head? = some token ∧
      ((isInteger token = false ∧
          jumpOverProgram.addSourceLine 10 "10 LET X 5" = jumpOverProgram) ∨
        (isInteger token = true ∧ ∃ n, stoi token = some n ∧
          jumpOverProgram.addSourceLine 10 "10 LET X 5" =
            jumpOverProgram.addSourceLine n "10 LET X 5" ∧
          (jumpOverProgram.addSourceLine 10 "10 LET X 5").getSourceLine n = "10 LET X 5" ∧
          (jumpOverProgram.addSourceLine 10 "10 LET X 5").getParsedStatement n = none ∧
          ∀ j, j ≠ n →
            (jumpOverProgram.addSourceLine 10 "10 LET X 5").getSourceLine j =
              jumpOverProgram.getSourceLine j ∧
            (jumpOverProgram.addSourceLine 10 "10 LET X 5").getParsedStatement j =
              jumpOverProgram.getParsedStatement j)) :=
  ⟨rfl,
    (processLine_syntaxError blankFrontEnd 0 "10 LET X 5" jumpOverProgram freshMachine
      (jumpOverProgram.addSourceLine 10 "10 LET X 5") freshMachine rfl).2⟩

/-! ## C14: the run leaves the program table alone -/

theorem executeOn_eq (s : Statement) (m : Machine) (p : Program) :
    s.executeOn m p = (s.execute m, p) := by
  cases s with
  | RemStatement => rfl
  | LetStatement varName exp =>
    simp only [Statement.executeOn, Statement.execute]
    cases exp.eval m.state <;> rfl
  | PrintStatement exp =>
    simp only [Statement.executeOn, Statement.execute]
    cases exp.eval m.state <;> rfl
  | InputStatement varName => rfl
  | EndStatement => rfl
  | GotoStatement targetLine => rfl
  | IfStatement lhs op rhs targetLine =>
    simp only [Statement.executeOn, Statement.execute]
    cases lhs.eval m.state with
    | error e => rfl
    | ok l =>
      cases rhs.eval m.state with
      | error e => rfl
      | ok r =>
        simp only
        split_ifs <;> rfl

theorem loopBodyOn_eq (m : Machine) (p : Program) : loopBodyOn m p = (loopBody p m, p) := by
  simp only [loopBodyOn, loopBody, executeCurrent]
  cases p.getParsedStatement m.currentLine with
  | none => rfl
  | some stmt =>
    simp only [executeOn_eq]
    cases stmt.execute { m with nextLine := p.getNextLineNumber m.currentLine } <;> rfl

theorem runLoopOn_eq (p : Program) :
    ∀ (fuel : Nat) (m : Machine),
      runLoopOn fuel m p = (runLoop p fuel m).map (fun r => (r, p)) := by
  intro fuel
  induction fuel with
  | zero => intro m; rfl
  | succ f ih =>
    intro m
    rw [runLoop_succ]
    unfold runLoopOn
    split_ifs with hc
    · rw [loopBodyOn_eq]
      cases loopBody p m with
      | again m2 => exact ih m2
      | leave r => rfl
    · rfl

/-- C14: for every program table and machine (every store), whenever
`runProgram` ends, be it normally, by `END`, or by an error raised in the run
(`LINE NUMBER ERROR`, undefined variable, division by zero), the program table
the run leaves behind is the program table it was started on, and the run
ends as the run defined on the fixed table does. -/
theorem runProgramOn_table_unchanged (p : Program) (m : Machine) (fuel : Nat) (r : Exec)
    (p' : Program) (h : runProgramOn fuel m p = some (r, p')) :
    p' = p ∧ runProgram fuel p m = some r := by
  rw [runProgramOn, runLoopOn_eq] at h
  rw [runProgram_eq]
  rcases hr : runLoop p fuel (enterLoop p m) with _ | r2
  · simp [hr] at h
  · simp only [hr, Option.map_some', Option.some.injEq, Prod.mk.injEq] at h
    exact ⟨h.2.symm, by rw [h.1]⟩

/-- C14 on the three ways a run ends: by `END` on the five example lines, by
`LINE NUMBER ERROR` on `10 GOTO 30`, by a division by zero at line 20 of
`10 LET X = 1`, `20 PRINT X / 0`, `30 PRINT X`. -/
theorem runProgramOn_table_unchanged_witness :
    (runProgramOn 4 freshMachine jumpOverProgram =
        some (.done ⟨EvalState.empty.setValue "X" 5, 50, -1, true, ["0\n"], []⟩,
          jumpOverProgram) ∧
      runProgram 4 jumpOverProgram freshMachine =
        some (.done ⟨EvalState.empty.setValue "X" 5, 50, -1, true, ["0\n"], []⟩)) ∧
    (runProgramOn 1 freshMachine danglingGotoProgram =
        some (.raised .lineNumberError ⟨EvalState.empty, 10, 30, false, [], []⟩,
          danglingGotoProgram) ∧
      runProgram 1 danglingGotoProgram freshMachine =
        some (.raised .lineNumberError ⟨EvalState.empty, 10, 30, false, [], []⟩)) ∧
    (runProgramOn 2 freshMachine divideByZeroProgram =
        some (.raised .divisionByZero ⟨EvalState.empty.setValue "X" 1, 20, 30, false, [], []⟩,
          divideByZeroProgram) ∧
      runProgram 2 divideByZeroProgram freshMachine =
        some (.raised .divisionByZero
          ⟨EvalState.empty.setValue "X" 1, 20, 30, false, [], []⟩)) :=
  ⟨⟨rfl, (runProgramOn_table_unchanged jumpOverProgram freshMachine 4 _ _ rfl).2⟩,
    ⟨rfl, (runProgramOn_table_unchanged danglingGotoProgram freshMachine 1 _ _ rfl).2⟩,
    ⟨rfl, (runProgramOn_table_unchanged divideByZeroProgram freshMachine 2 _ _ rfl).2⟩⟩

/-! ## C15: the run loop and the state machine of section 4.6 -/

/-- One pass of the run loop against one step of the state machine: they
agree, except that where the next line is the sentinel the state machine
halts at once while the loop goes on to its test with `currentLine` at `-1`. -/
theorem loopBody_specStep (p : Program) (m : Machine)
    (htexts : ∀ e ∈ p.sourceLines.entries, e.2 ≠ "") (hflag : m.shouldEnd = false) :
    (loopBody p m = specStep p m ∧
      ∀ m3, specStep p m = .again m3 → m3.currentLine ≠ -1 ∧ m3.shouldEnd = false) ∨
    ∃ m2, m2.shouldEnd = false ∧
      loopBody p m = .again { m2 with currentLine := -1 } ∧
      specStep p m = .leave (.done m2) := by
  have hspec : specStep p m =
      match executeCurrent p m with
      | .done m2 =>
        if m2.shouldEnd then .leave (.done m2)
        else if m2.nextLine ≠ -1 ∧ m2.nextLine ∉ p.sourceLines.keys then
          .leave (.raised .lineNumberError m2)
        else if m2.nextLine = -1 then .leave (.done m2)
        else .again { m2 with currentLine := m2.nextLine }
      | .raised e m2 => .leave (.raised e m2)
      | .starved m2 => .leave (.starved m2) := by
    simp only [specStep, executeCurrent]
  rcases hexec : executeCurrent p m with m2 | ⟨e, m2⟩ | m2
  · obtain ⟨hcur, hframe⟩ := executeCurrent_frame p m m2 hexec
    rw [hflag] at hframe
    simp only [hexec] at hspec
    by_cases hend : m2.shouldEnd = true
    · -- the statement was END
      have hnext : m2.nextLine = p.getNextLineNumber m2.currentLine := by
        rcases hframe with h | h
        · rw [h] at hend
          simp at hend
        · rw [hcur]
          exact h
      left
      constructor
      · rw [hspec]
        simp [loopBody, hexec, advance, hnext, hend]
      · intro m3 h3
        rw [hspec] at h3
        simp [hend] at h3
    · have hend' : m2.shouldEnd = false := by simpa using hend
      by_cases hsent : m2.nextLine = -1
      · right
        refine ⟨m2, hend', ?_, ?_⟩
        · simp [loopBody, hexec, advance, hsent, hend']
        · rw [hspec]
          simp [hend', hsent]
      · by_cases hkey : m2.nextLine ∈ p.sourceLines.keys
        · left
          have hsrc : p.getSourceLine m2.nextLine ≠ "" :=
            htexts _ (getSourceLine_mem p _ hkey)
          constructor
          · rw [hspec]
            simp only [loopBody, hexec, advance, hend', hsent, hkey, hsrc]
            simp
          · intro m3 h3
            rw [hspec] at h3
            simp only [hend', hsent, hkey] at h3
            simp only [Bool.false_eq_true, if_false, ne_eq, not_false_eq_true, not_true_eq_false,
              and_false, LoopResult.again.injEq] at h3
            subst h3
            exact ⟨hsent, rfl⟩
        · left
          have hsrc : p.getSourceLine m2.nextLine = "" := getSourceLine_of_not_mem p _ hkey
          have hne : m2.nextLine ≠ p.getNextLineNumber m2.currentLine := by
            intro heq
            rcases getNextLineNumber_mem p m2.currentLine with h | h
            · exact hsent (heq.trans h)
            · exact hkey (heq ▸ h)
          constructor
          · rw [hspec]
            simp [loopBody, hexec, advance, hend', hsent, hkey, hsrc, hne]
          · intro m3 h3
            rw [hspec] at h3
            simp [hend', hsent, hkey] at h3
  · left
    simp only [hexec] at hspec
    constructor
    · rw [hspec]
      simp [loopBody, hexec]
    · intro m3 h3
      rw [hspec] at h3
      simp at h3
  · left
    simp only [hexec] at hspec
    constructor
    · rw [hspec]
      simp [loopBody, hexec]
    · intro m3 h3
      rw [hspec] at h3
      simp at h3

theorem specLoop_succ (p : Program) (fuel : Nat) (m : Machine) :
    specLoop p (fuel + 1) m =
      match specStep p m with
      | .again m2 => specLoop p fuel m2
      | .leave r => some r := rfl

/-- What the run loop ends with, the state machine ends with, in as many
steps. -/
theorem specLoop_of_runLoop (p : Program)
    (htexts : ∀ e ∈ p.sourceLines.entries, e.2 ≠ "") :
    ∀ (fuel : Nat) (m : Machine) (r : Exec), m.currentLine ≠ -1 → m.shouldEnd = false →
      runLoop p fuel m = some r →
      ∃ r', specLoop p fuel m = some r' ∧ r'.observe = r.observe := by
  intro fuel
  induction fuel with
  | zero => intro m r _ _ h; simp [runLoop] at h
  | succ f ih =>
    intro m r hline hflag h
    rw [runLoop_succ, if_pos ⟨hline, hflag⟩] at h
    rw [specLoop_succ]
    rcases loopBody_specStep p m htexts hflag with ⟨heq, hinv⟩ | ⟨m2, hend, hbody, hspec⟩
    · rw [heq] at h
      cases hs : specStep p m with
      | again m3 =>
        rw [hs] at h
        obtain ⟨h1, h2⟩ := hinv m3 hs
        exact ih m3 r h1 h2 h
      | leave r0 =>
        rw [hs] at h
        exact ⟨r0, rfl, by simp only [Option.some.injEq] at h; rw [h]⟩
    · rw [hbody] at h
      rw [hspec]
      refine ⟨.done m2, rfl, ?_⟩
      cases f with
      | zero => simp [runLoop] at h
      | succ f' =>
        simp only [runLoop_succ, ne_eq, not_true_eq_false, false_and, if_false,
          Option.some.injEq] at h
        rw [← h]
        rfl

/-- What the state machine ends with, the run loop ends with, with one more
pass allowed for its last test. -/
theorem runLoop_of_specLoop (p : Program)
    (htexts : ∀ e ∈ p.sourceLines.entries, e.2 ≠ "") :
    ∀ (fuel : Nat) (m : Machine) (r' : Exec), m.currentLine ≠ -1 → m.shouldEnd = false →
      specLoop p fuel m = some r' →
      ∃ r, runLoop p (fuel + 1) m = some r ∧ r.observe = r'.observe := by
  intro fuel
  induction fuel with
  | zero => intro m r' _ _ h; simp [specLoop] at h
  | succ f ih =>
    intro m r' hline hflag h
    rw [specLoop_succ] at h
    rw [runLoop_succ, if_pos ⟨hline, hflag⟩]
    rcases loopBody_specStep p m htexts hflag with ⟨heq, hinv⟩ | ⟨m2, hend, hbody, hspec⟩
    · rw [heq]
      cases hs : specStep p m with
      | again m3 =>
        rw [hs] at h
        obtain ⟨h1, h2⟩ := hinv m3 hs
        exact ih m3 r' h1 h2 h
      | leave r0 =>
        rw [hs] at h
        exact ⟨r0, rfl, by simp only [Option.some.injEq] at h; rw [h]⟩
    · rw [hspec] at h
      simp only [Option.some.injEq] at h
      subst h
      rw [hbody]
      refine ⟨.done { m2 with currentLine := -1 }, ?_, rfl⟩
      simp [runLoop_succ]

/-- C15: for every program table whose line numbers are positive, whose
stored texts are non-empty and whose jump targets are positive, and every
machine (every store and input): whatever `runProgram` ends with, the state
machine of section 4.6 ends with, in as many steps, with the same outcome
(halt, or the same error at the same line), the same final variable store,
output and input left; whatever the state machine ends with, `runProgram`
ends with, with one more pass allowed; so neither ends unless the other does.
In particular, a pass whose statement returns without terminating and leaves
the pending next line at the natural successor of the current line, by a jump
to it or by falling through, continues at that line in both. -/
theorem runProgram_refines_specRun (p : Program) (m : Machine)
    (hpos : ∀ n ∈ p.sourceLines.keys, 0 < n)
    (htexts : ∀ e ∈ p.sourceLines.entries, e.2 ≠ "")
    (htargets : ∀ e ∈ p.parsedStatements.entries, ∀ t ∈ e.2.getTargetLine, 0 < t) :
    (∀ (fuel : Nat) (r : Exec), runProgram fuel p m = some r →
      ∃ r', specRun fuel p m = some r' ∧ r'.observe = r.observe) ∧
    (∀ (fuel : Nat) (r' : Exec), specRun fuel p m = some r' →
      ∃ r, runProgram (fuel + 1) p m = some r ∧ r.observe = r'.observe) ∧
    (∀ (mk m2 : Machine), mk.shouldEnd = false → executeCurrent p mk = .done m2 →
      m2.shouldEnd = false → m2.nextLine = p.getNextLineNumber mk.currentLine →
      m2.nextLine ≠ -1 →
      loopBody p mk = .again { m2 with currentLine := m2.nextLine } ∧
      specStep p mk = .again { m2 with currentLine := m2.nextLine }) := by
  have _ := htargets
  refine ⟨?_, ?_, ?_⟩
  · intro fuel r h
    rw [runProgram_eq] at h
    unfold specRun
    by_cases hkeys : p.sourceLines.keys = []
    · rw [if_pos hkeys]
      have hfirst : p.getFirstLineNumber = -1 := by
        rcases getFirstLineNumber_mem p with h1 | h1
        · exact h1
        · rw [hkeys] at h1
          simp at h1
      cases fuel with
      | zero => simp [runLoop] at h
      | succ f =>
        rw [runLoop_succ] at h
        simp only [enterLoop, hfirst, ne_eq, not_true_eq_false, false_and, if_false,
          Option.some.injEq] at h
        rw [← h]
        exact ⟨_, rfl, rfl⟩
    · rw [if_neg hkeys]
      have hfirst : (enterLoop p m).currentLine ≠ -1 := by
        rcases getFirstLineNumber_mem p with h1 | h1
        · exfalso
          apply hkeys
          unfold Program.getFirstLineNumber at h1
          unfold IntMap.keys entryKeys
          rcases hes : p.sourceLines.entries with _ | ⟨⟨k, v⟩, rest⟩
          · rfl
          · rw [hes] at h1
            simp only at h1
            have := hpos k (by simp [IntMap.keys, entryKeys, hes])
            omega
        · intro heq
          have := hpos _ h1
          simp only [enterLoop] at heq
          omega
      exact specLoop_of_runLoop p htexts fuel _ r hfirst rfl h
  · intro fuel r' h
    rw [runProgram_eq]
    unfold specRun at h
    by_cases hkeys : p.sourceLines.keys = []
    · rw [if_pos hkeys] at h
      have hfirst : p.getFirstLineNumber = -1 := by
        rcases getFirstLineNumber_mem p with h1 | h1
        · exact h1
        · rw [hkeys] at h1
          simp at h1
      simp only [Option.some.injEq] at h
      subst h
      refine ⟨.done (enterLoop p m), ?_, rfl⟩
      rw [runLoop_succ]
      simp [enterLoop, hfirst]
    · rw [if_neg hkeys] at h
      have hfirst : (enterLoop p m).currentLine ≠ -1 := by
        rcases getFirstLineNumber_mem p with h1 | h1
        · exfalso
          apply hkeys
          unfold Program.getFirstLineNumber at h1
          unfold IntMap.keys entryKeys
          rcases hes : p.sourceLines.entries with _ | ⟨⟨k, v⟩, rest⟩
          · rfl
          · rw [hes] at h1
            simp only at h1
            have := hpos k (by simp [IntMap.keys, entryKeys, hes])
            omega
        · intro heq
          have := hpos _ h1
          simp only [enterLoop] at heq
          omega
      exact runLoop_of_specLoop p htexts fuel _ r' hfirst rfl h
  · intro mk m2 hflag hexec hend hnext hsent
    obtain ⟨hcur, _⟩ := executeCurrent_frame p mk m2 hexec
    have hkey : m2.nextLine ∈ p.sourceLines.keys := by
      rcases getNextLineNumber_mem p mk.currentLine with h | h
      · exact absurd (hnext.trans h) hsent
      · rw [hnext]
        exact h
    constructor
    · simp [loopBody, hexec, advance, hcur, hnext, hend]
    · have hspec : specStep p mk =
          match executeCurrent p mk with
          | .done m2 =>
            if m2.shouldEnd then .leave (.done m2)
            else if m2.nextLine ≠ -1 ∧ m2.nextLine ∉ p.sourceLines.keys then
              .leave (.raised .lineNumberError m2)
            else if m2.nextLine = -1 then .leave (.done m2)
            else .again { m2 with currentLine := m2.nextLine }
          | .raised e m2 => .leave (.raised e m2)
          | .starved m2 => .leave (.starved m2) := by
        simp only [specStep, executeCurrent]
      rw [hspec, hexec]
      simp [hend, hsent, hkey]

/-- C15 on `10 GOTO 20`, `20 PRINT 0`, where the jump of line 10 goes to its
natural successor: the run loop and the state machine both continue at line
20 and both halt with `0` written. -/
theorem runProgram_refines_specRun_witness :
    runProgram 3 gotoSuccessorProgram freshMachine =
      some (.done ⟨EvalState.empty, -1, -1, false, ["0\n"], []⟩) ∧
    specRun 2 gotoSuccessorProgram freshMachine =
      some (.done ⟨EvalState.empty, 20, -1, false, ["0\n"], []⟩) ∧
    (∃ r', specRun 3 gotoSuccessorProgram freshMachine = some r' ∧
      r'.observe = (Exec.done ⟨EvalState.empty, -1, -1, false, ["0\n"], []⟩).observe) ∧
    loopBody gotoSuccessorProgram (enterLoop gotoSuccessorProgram freshMachine) =
      .again ⟨EvalState.empty, 20, 20, false, [], []⟩ ∧
    specStep gotoSuccessorProgram (enterLoop gotoSuccessorProgram freshMachine) =
      .again ⟨EvalState.empty, 20, 20, false, [], []⟩ :=
  ⟨rfl, rfl,
    (runProgram_refines_specRun gotoSuccessorProgram freshMachine (by decide) (by decide)
      (by decide)).1 3 _ rfl,
    (runProgram_refines_specRun gotoSuccessorProgram freshMachine (by decide) (by decide)
      (by decide)).2.2 (enterLoop gotoSuccessorProgram freshMachine)
      ⟨EvalState.empty, 10, 20, false, [], []⟩ rfl rfl rfl rfl (by decide)⟩

/-! ## C16: where the current line points -/

/-- A pass that goes on does so at `-1` or at a stored line whose text is not
empty or is the natural successor. -/
theorem loopBody_currentLine (p : Program) (m m2 : Machine)
    (h : loopBody p m = .again m2) :
    m2.currentLine = -1 ∨ m2.currentLine ∈ p.sourceLines.keys := by
  unfold loopBody at h
  split at h
  · rename_i m' hexec
    unfold advance at h
    split_ifs at h with h1 h2 h3
    · simp only [LoopResult.again.injEq] at h
      subst h
      right
      by_contra hkey
      exact h2 (getSourceLine_of_not_mem p _ hkey)
    · simp only [LoopResult.again.injEq] at h
      subst h
      simp only [not_and_or, not_not] at h1
      rcases h1 with h1 | h1
      · show m'.nextLine = -1 ∨ m'.nextLine ∈ p.sourceLines.keys
        rw [h1]
        exact getNextLineNumber_mem p _
      · exact Or.inl h1
  · simp at h
  · simp at h

theorem passes_currentLine (p : Program) :
    ∀ (k : Nat) (m mk : Machine), passes p k m = some mk →
      (m.currentLine = -1 ∨ m.currentLine ∈ p.sourceLines.keys) →
      mk.currentLine = -1 ∨ mk.currentLine ∈ p.sourceLines.keys := by
  intro k
  induction k with
  | zero =>
    intro m mk h hm
    simp only [passes, Option.some.injEq] at h
    subst h
    exact hm
  | succ k ih =>
    intro m mk h hm
    rw [passes_succ] at h
    split_ifs at h with hc
    cases hb : loopBody p m with
    | again m2 =>
      rw [hb] at h
      exact ih m2 mk h (loopBody_currentLine p m m2 hb)
    | leave r =>
      rw [hb] at h
      simp at h

/-- C16: for every program table whose stored texts are non-empty and every
machine (every store): at the head of every pass of the run loop
`currentLine` is `-1` or a stored line number, whose stored text is what
`getSourceLine` returns and is not empty; and when that line has no parsed
statement, the pass executes nothing: the variable store, the output and the
input stay as they are. -/
theorem currentLine_stored (p : Program) (m : Machine) (k : Nat) (mk : Machine)
    (htexts : ∀ e ∈ p.sourceLines.entries, e.2 ≠ "")
    (hreach : passes p k (enterLoop p m) = some mk) :
    (mk.currentLine = -1 ∨
      (mk.currentLine ∈ p.sourceLines.keys ∧
        (mk.currentLine, p.getSourceLine mk.currentLine) ∈ p.sourceLines.entries ∧
        p.getSourceLine mk.currentLine ≠ "")) ∧
    (p.getParsedStatement mk.currentLine = none →
      executeCurrent p mk =
        .done { mk with nextLine := p.getNextLineNumber mk.currentLine }) := by
  constructor
  · rcases passes_currentLine p k _ mk hreach (getFirstLineNumber_mem p) with h | h
    · exact Or.inl h
    · exact Or.inr ⟨h, getSourceLine_mem p _ h, htexts _ (getSourceLine_mem p _ h)⟩
  · intro hnone
    simp only [executeCurrent, hnone]

/-- C16 on the five example lines: after two passes the run is at line 40. -/
theorem currentLine_stored_witness :
    ((40 : Int) = -1 ∨
      ((40 : Int) ∈ jumpOverProgram.sourceLines.keys ∧
        ((40 : Int), jumpOverProgram.getSourceLine 40) ∈ jumpOverProgram.sourceLines.entries ∧
        jumpOverProgram.getSourceLine 40 ≠ "")) ∧
    (jumpOverProgram.getParsedStatement 40 = none →
      executeCurrent jumpOverProgram ⟨EvalState.empty.setValue "X" 5, 40, 40, false, [], []⟩ =
        .done ⟨EvalState.empty.setValue "X" 5, 40, 50, false, [], []⟩) :=
  currentLine_stored jumpOverProgram freshMachine 2
    ⟨EvalState.empty.setValue "X" 5, 40, 40, false, [], []⟩ (by decide) rfl

/-! ## C17: an evaluation that fails -/

/-- C17: for every machine (every store) and every statement that is an
assignment or a print whose expression fails to evaluate in the store with
the error `e`, or a conditional jump whose left operand fails with `e`, or
whose left operand evaluates and whose right operand fails with `e`: the
error is the undefined variable or the division by zero; `execute` fails with
`e` and leaves the machine (variable store, `nextLine`, `shouldEnd`, output,
input) as it was; and for every program table and run of `runProgram` that
reaches the head of the loop with this machine at a line for which the table
holds this statement, the run ends with the error `e` at that line, with the
variable store, output and input of the beginning of that pass, whatever the
number of passes allowed beyond those made, and there is no later pass. -/
theorem evaluation_failure (m : Machine) (stmt : Statement) (e : ErrorException)
    (hfail : (∃ varName exp, stmt = .LetStatement varName exp ∧ exp.eval m.state = .error e) ∨
      (∃ exp, stmt = .PrintStatement exp ∧ exp.eval m.state = .error e) ∨
      (∃ lhs op rhs t, stmt = .IfStatement lhs op rhs t ∧
        (lhs.eval m.state = .error e ∨
          ((∃ l, lhs.eval m.state = .ok l) ∧ rhs.eval m.state = .error e)))) :
    (e = .undefinedVariable ∨ e = .divisionByZero) ∧
    stmt.execute m = .raised e m ∧
    ∀ (p : Program) (m0 : Machine) (k : Nat),
      passes p k (enterLoop p m0) = some m → m.currentLine ≠ -1 →
      p.getParsedStatement m.currentLine = some stmt →
      (∀ fuel, k < fuel → runProgram fuel p m0 =
        some (.raised e { m with nextLine := p.getNextLineNumber m.currentLine })) ∧
      ∀ j, k < j → passes p j (enterLoop p m0) = none := by
  have hexec : ∀ m1 : Machine, m1.state = m.state → stmt.execute m1 = .raised e m1 := by
    intro m1 hst
    rcases hfail with ⟨v, exp, rfl, he⟩ | ⟨exp, rfl, he⟩ | ⟨lhs, op, rhs, t, rfl, he⟩
    · simp [Statement.execute, hst, he]
    · simp [Statement.execute, hst, he]
    · rcases he with he | ⟨⟨l, hl⟩, hr⟩
      · simp [Statement.execute, hst, he]
      · simp [Statement.execute, hst, hl, hr]
  refine ⟨?_, hexec m rfl, ?_⟩
  · rcases hfail with ⟨v, exp, _, he⟩ | ⟨exp, _, he⟩ | ⟨lhs, op, rhs, t, _, he⟩
    · exact eval_error _ _ _ he
    · exact eval_error _ _ _ he
    · rcases he with he | ⟨_, hr⟩
      · exact eval_error _ _ _ he
      · exact eval_error _ _ _ hr
  · intro p m0 k hreach hline hstmt
    have hflag : m.shouldEnd = false := passes_shouldEnd p k _ m hreach rfl
    have hcur : executeCurrent p m =
        .raised e { m with nextLine := p.getNextLineNumber m.currentLine } := by
      simp only [executeCurrent, hstmt]
      exact hexec _ rfl
    have hbody : loopBody p m =
        .leave (.raised e { m with nextLine := p.getNextLineNumber m.currentLine }) := by
      simp [loopBody, hcur]
    refine ⟨?_, passes_none_of_leave p k _ m _ hreach hbody⟩
    intro fuel hfuel
    obtain ⟨f, rfl⟩ : ∃ f, fuel = k + (f + 1) := ⟨fuel - k - 1, by omega⟩
    rw [runProgram_eq, runLoop_of_passes p k _ m hreach, runLoop_succ]
    simp [hline, hflag, hbody]

/-- C17 on the table `10 LET X = 1`, `20 PRINT X / 0`, `30 PRINT X`: the run
reaches line 20 after one pass with `X` bound to 1, the statement stored
there divides by zero, and the run ends with that error at line 20, `X`
still bound to 1, nothing written; line 30 is not executed. -/
theorem evaluation_failure_witness :
    divideByZeroProgram.getParsedStatement 20 =
      some (.PrintStatement (.BinaryOp .divide (.VariableRef "X") (.Constant 0))) ∧
    passes divideByZeroProgram 1 (enterLoop divideByZeroProgram freshMachine) =
      some ⟨EvalState.empty.setValue "X" 1, 20, 20, false, [], []⟩ ∧
    (Statement.PrintStatement (.BinaryOp .divide (.VariableRef "X") (.Constant 0))).execute
        ⟨EvalState.empty.setValue "X" 1, 20, 20, false, [], []⟩ =
      .raised .divisionByZero ⟨EvalState.empty.setValue "X" 1, 20, 20, false, [], []⟩ ∧
    (∀ fuel, 1 < fuel → runProgram fuel divideByZeroProgram freshMachine =
      some (.raised .divisionByZero
        ⟨EvalState.empty.setValue "X" 1, 20, 30, false, [], []⟩)) ∧
    ∀ j, 1 < j →
      passes divideByZeroProgram j (enterLoop divideByZeroProgram freshMachine) = none :=
  ⟨rfl, rfl,
    (evaluation_failure ⟨EvalState.empty.setValue "X" 1, 20, 20, false, [], []⟩
      (.PrintStatement (.BinaryOp .divide (.VariableRef "X") (.Constant 0))) .divisionByZero
      (Or.inr (Or.inl ⟨_, rfl, rfl⟩))).2.1,
    (evaluation_failure ⟨EvalState.empty.setValue "X" 1, 20, 20, false, [], []⟩
      (.PrintStatement (.BinaryOp .divide (.VariableRef "X") (.Constant 0))) .divisionByZero
      (Or.inr (Or.inl ⟨_, rfl, rfl⟩))).2.2 divideByZeroProgram freshMachine 1 rfl (by decide)
      rfl⟩

/-! ## C18: reading a number -/

theorem executeInput_retries (varName : String) (good : String) (n : Int)
    (rest : List String) (hgood : stoi good = some n) :
    ∀ (bad : List String) (m : Machine), (∀ line ∈ bad, stoi line = none) →
      executeInput varName (bad ++ good :: rest) m =
        .done { m with
          output := m.output ++
            ((List.replicate bad.length [" ? ", "INVALID NUMBER\n"]).flatten ++ [" ? "])
          input := rest
          state := m.state.setValue varName n } := by
  intro bad
  induction bad with
  | nil =>
    intro m _
    simp [executeInput, hgood]
  | cons line bad ih =>
    intro m hbad
    have hline : stoi line = none := hbad line (List.mem_cons_self _ _)
    have hrec := ih
      { m with output := m.output ++ [" ? ", "INVALID NUMBER\n"], input := bad ++ good :: rest }
      (fun l hl => hbad l (List.mem_cons_of_mem _ hl))
    simp only [List.cons_append, executeInput, hline]
    refine Eq.trans hrec ?_
    simp [List.replicate_succ]

/-- What `INPUT v` does with its input, in terms of `std::stoi`, the test the
code applies: for every variable name, machine (every store) and input whose
first `k` lines `std::stoi` rejects and from whose next line it reads `n`,
executing `INPUT v` returns normally, the input left is what follows those
`k + 1` lines, the output has grown by the prompt `k + 1` times and
`INVALID NUMBER` `k` times, a diagnostic after each of the first `k` prompts,
the variable is bound to `n` and every other variable has the binding it
had. -/
theorem InputStatement_execute (varName : String) (m : Machine) (bad : List String)
    (good : String) (n : Int) (rest : List String)
    (hinput : m.input = bad ++ good :: rest)
    (hbad : ∀ line ∈ bad, stoi line = none) (hgood : stoi good = some n) :
    ∃ m' : Machine, (Statement.InputStatement varName).execute m = .done m' ∧
      m'.input = rest ∧
      m'.output = m.output ++
        ((List.replicate bad.length [" ? ", "INVALID NUMBER\n"]).flatten ++ [" ? "]) ∧
      (m'.output.drop m.output.length).count " ? " = bad.length + 1 ∧
      (m'.output.drop m.output.length).count "INVALID NUMBER\n" = bad.length ∧
      m'.state.getValue varName = .ok n ∧
      (∀ other, other ≠ varName → m'.state.symbolTable other = m.state.symbolTable other) ∧
      m'.currentLine = m.currentLine ∧ m'.nextLine = m.nextLine ∧
      m'.shouldEnd = m.shouldEnd := by
  have hcount : ∀ l : List String,
      ((List.replicate l.length [" ? ", "INVALID NUMBER\n"]).flatten ++ [" ? "]).count " ? " =
          l.length + 1 ∧
        ((List.replicate l.length [" ? ", "INVALID NUMBER\n"]).flatten ++ [" ? "]).count
          "INVALID NUMBER\n" = l.length := by
    intro l
    induction l with
    | nil => exact ⟨by decide, by decide⟩
    | cons a l ih =>
      obtain ⟨h1, h2⟩ := ih
      constructor
      · simp only [List.length_cons, List.replicate_succ, List.flatten_cons, List.cons_append,
          List.nil_append] at h1 ⊢
        rw [List.count_cons, List.count_cons, h1]
        simp
      · simp only [List.length_cons, List.replicate_succ, List.flatten_cons, List.cons_append,
          List.nil_append] at h2 ⊢
        rw [List.count_cons, List.count_cons, h2]
        simp
  refine ⟨{ m with
      output := m.output ++
        ((List.replicate bad.length [" ? ", "INVALID NUMBER\n"]).flatten ++ [" ? "])
      input := rest
      state := m.state.setValue varName n }, ?_, rfl, rfl, ?_, ?_, ?_, ?_, rfl, rfl, rfl⟩
  · simp only [Statement.execute, hinput]
    exact executeInput_retries varName good n rest hgood bad m hbad
  · simp only [List.drop_left]
    exact (hcount bad).1
  · simp only [List.drop_left]
    exact (hcount bad).2
  · simp [EvalState.getValue, EvalState.setValue]
  · intro other hother
    simp [EvalState.setValue, hother]

/-- The input `abc`, an empty line, `42`, `7`: two diagnostics, three
prompts, `X` bound to 42 and the line `7` left. -/
theorem InputStatement_execute_witness :
    ∃ m' : Machine,
      (Statement.InputStatement "X").execute
          ⟨EvalState.empty, 10, 20, false, [], ["abc", "", "42", "7"]⟩ = .done m' ∧
      m'.input = ["7"] ∧
      m'.output = [] ++ ((List.replicate 2 [" ? ", "INVALID NUMBER\n"]).flatten ++ [" ? "]) ∧
      (m'.output.drop 0).count " ? " = 2 + 1 ∧
      (m'.output.drop 0).count "INVALID NUMBER\n" = 2 ∧
      m'.state.getValue "X" = .ok 42 ∧
      (∀ other, other ≠ "X" →
        m'.state.symbolTable other = EvalState.empty.symbolTable other) ∧
      m'.currentLine = 10 ∧ m'.nextLine = 20 ∧ m'.shouldEnd = false :=
  InputStatement_execute "X" ⟨EvalState.empty, 10, 20, false, [], ["abc", "", "42", "7"]⟩
    ["abc", ""] "42" 42 ["7"] rfl (by decide) (by decide)

/-- C18 (the code at the failing input): for every variable name and machine
(every store) whose next input line is no integer (`isInteger` rejects it)
and yet begins, after white space and a sign, with digits, so that
`std::stoi` reads a number `n` from it (as it reads 3 from `3.14` and 12 from
`12abc`), executing `INPUT v` writes the prompt once and no `INVALID NUMBER`,
consumes that line alone and binds `v` to `n`; the lines after it stay
unread. -/
theorem InputStatement_execute_trailing_text (varName : String) (m : Machine) (line : String)
    (n : Int) (rest : List String) (hinput : m.input = line :: rest)
    (hnot : isInteger line = false) (hstoi : stoi line = some n) :
    isInteger line = false ∧
    (Statement.InputStatement varName).execute m =
      .done { m with
        output := m.output ++ [" ? "]
        input := rest
        state := m.state.setValue varName n } := by
  refine ⟨hnot, ?_⟩
  simp only [Statement.execute, hinput, executeInput, hstoi]

/-- C18 at the input `3.14`, `7`, where the first line is no integer and the
second is the integer 7: `X` is bound to 3 after one prompt, without
`INVALID NUMBER`, and the line `7` is left unread; likewise `12abc` binds 12,
while `abc` is rejected and the line after it is bound. -/
theorem InputStatement_execute_trailing_text_witness :
    (isInteger "3.14" = false ∧
      (Statement.InputStatement "X").execute
          ⟨EvalState.empty, 10, 20, false, [], ["3.14", "7"]⟩ =
        .done ⟨EvalState.empty.setValue "X" 3, 10, 20, false, [" ? "], ["7"]⟩) ∧
    (isInteger "12abc" = false ∧
      (Statement.InputStatement "X").execute
          ⟨EvalState.empty, 10, 20, false, [], ["12abc", "7"]⟩ =
        .done ⟨EvalState.empty.setValue "X" 12, 10, 20, false, [" ? "], ["7"]⟩) ∧
    isInteger "7" = true ∧
    (Statement.InputStatement "X").execute
        ⟨EvalState.empty, 10, 20, false, [], ["abc", "7"]⟩ =
      .done ⟨EvalState.empty.setValue "X" 7, 10, 20, false,
        [" ? ", "INVALID NUMBER\n", " ? "], []⟩ :=
  ⟨InputStatement_execute_trailing_text "X"
      ⟨EvalState.empty, 10, 20, false, [], ["3.14", "7"]⟩ "3.14" 3 ["7"] rfl (by decide)
      (by decide),
    InputStatement_execute_trailing_text "X"
      ⟨EvalState.empty, 10, 20, false, [], ["12abc", "7"]⟩ "12abc" 12 ["7"] rfl (by decide)
      (by decide),
    by decide, rfl⟩

/-! ## C19: parsed statements belong to stored lines -/

theorem processLine_parsed_subset (fe : FrontEnd) (fuel : Nat) (line : String) (p : Program)
    (m : Machine) (r : LineExec) (h : processLine fe fuel line p m = some r)
    (hp : ∀ n ∈ p.parsedStatements.keys, n ∈ p.sourceLines.keys) :
    ∀ n ∈ r.program.parsedStatements.keys, n ∈ r.program.sourceLines.keys := by
  intro x hx
  rcases processLine_program fe fuel line p m r h with h1 | h1 | ⟨token, n, _, _, _, h1⟩
  · rw [h1] at hx ⊢
    exact hp x hx
  · rw [h1] at hx
    simp [Program.clear, IntMap.empty, IntMap.keys, entryKeys] at hx
  · rcases h1 with h1 | h1 | ⟨stmt, h1⟩
    · rw [h1] at hx ⊢
      rw [parsedKeys_removeSourceLine] at hx
      rw [keys_removeSourceLine]
      exact ⟨hx.1, hp x hx.2⟩
    · rw [h1] at hx ⊢
      rw [parsedKeys_addSourceLine] at hx
      rw [keys_addSourceLine]
      exact Or.inr (hp x hx.2)
    · rw [h1] at hx ⊢
      rw [parsedKeys_setParsedStatement, parsedKeys_addSourceLine] at hx
      rw [keys_setParsedStatement, keys_addSourceLine]
      rcases hx with hx | hx
      · exact Or.inl hx
      · exact Or.inr (hp x hx.2)

theorem feedLines_parsed_subset (fe : FrontEnd) (fuel : Nat) :
    ∀ (lines : List String) (p : Program) (m : Machine) (p' : Program) (m' : Machine),
      (∀ n ∈ p.parsedStatements.keys, n ∈ p.sourceLines.keys) →
      feedLines fe fuel lines p m = some (p', m') →
      ∀ n ∈ p'.parsedStatements.keys, n ∈ p'.sourceLines.keys := by
  intro lines
  induction lines with
  | nil =>
    intro p m p' m' hp h
    simp only [feedLines, Option.some.injEq, Prod.mk.injEq] at h
    rw [← h.1]
    exact hp
  | cons line rest ih =>
    intro p m p' m' hp h
    unfold feedLines at h
    rcases hr : processLine fe fuel line p m with _ | r
    · simp [hr] at h
    · simp only [hr] at h
      have hr' := processLine_parsed_subset fe fuel line p m r hr hp
      split_ifs at h
      · exact ih r.program r.machine p' m' hr' h
      · simp only [Option.some.injEq, Prod.mk.injEq] at h
        rw [← h.1]
        exact hr'

/-- C19: for every front end, every sequence of input lines fed to
`processLine` starting from the empty program table (numbered lines that
parse, numbered lines that fail to parse, bare line numbers, `CLEAR`, and
any others) and every table reached, every line number that has a parsed
statement has a stored source text. -/
theorem feedLines_parsedStatements_stored (fe : FrontEnd) (fuel : Nat)
    (lines : List String) (m : Machine) (p' : Program) (m' : Machine)
    (h : feedLines fe fuel lines Program.empty m = some (p', m')) :
    ∀ n ∈ p'.parsedStatements.keys, n ∈ p'.sourceLines.keys := by
  apply feedLines_parsed_subset fe fuel lines Program.empty m p' m' _ h
  intro n hn
  simp [Program.empty, IntMap.empty, IntMap.keys, entryKeys] at hn

/-- C19 on the lines `10 REM`, `20 LET X 5`, `30 END`, `10`: the last table
has a parsed statement for line 30 only, and stores lines 20 and 30. -/
theorem feedLines_parsedStatements_stored_witness :
    feedLines blankFrontEnd 0 ["10 REM", "20 LET X 5", "30 END", "10"] Program.empty
      freshMachine = some (sessionProgram, freshMachine) ∧
    sessionProgram.parsedStatements.keys = [30] ∧
    sessionProgram.sourceLines.keys = [20, 30] ∧
    ∀ n ∈ sessionProgram.parsedStatements.keys, n ∈ sessionProgram.sourceLines.keys :=
  ⟨rfl, by decide, by decide,
    feedLines_parsedStatements_stored blankFrontEnd 0 ["10 REM", "20 LET X 5", "30 END", "10"]
      freshMachine sessionProgram freshMachine rfl⟩

/-! ## C20: a run without jumps -/

/-- A statement that is no jump leaves `nextLine` and `currentLine` as they
are, and sets `shouldEnd` exactly when it is `END`. -/
theorem execute_no_jump (s : Statement) (m m' : Machine) (h : s.execute m = .done m')
    (hs : s.getTargetLine = none) :
    m'.nextLine = m.nextLine ∧ m'.currentLine = m.currentLine ∧
      (s = .EndStatement → m'.shouldEnd = true) ∧
      (s ≠ .EndStatement → m'.shouldEnd = m.shouldEnd) := by
  cases s with
  | RemStatement =>
    simp only [Statement.execute, Exec.done.injEq] at h
    subst h
    simp
  | LetStatement varName exp =>
    simp only [Statement.execute] at h
    split at h
    · simp at h
    · simp only [Exec.done.injEq] at h
      subst h
      simp
  | PrintStatement exp =>
    simp only [Statement.execute] at h
    split at h
    · simp at h
    · simp only [Exec.done.injEq] at h
      subst h
      simp
  | InputStatement varName =>
    simp only [Statement.execute] at h
    obtain ⟨h1, h2, h3⟩ := executeInput_frame varName _ _ _ h
    simp [h1, h2, h3]
  | EndStatement =>
    simp only [Statement.execute, Exec.done.injEq] at h
    subst h
    simp
  | GotoStatement targetLine => simp [Statement.getTargetLine] at hs
  | IfStatement lhs op rhs targetLine => simp [Statement.getTargetLine] at hs

/-- The statement `getParsedStatement` returns is an entry of
`parsedStatements`. -/
theorem getParsedStatement_mem (p : Program) (n : Int) (s : Statement)
    (h : p.getParsedStatement n = some s) : ∃ k, (k, s) ∈ p.parsedStatements.entries := by
  unfold Program.getParsedStatement at h
  split at h
  · simp at h
  · rename_i k stmt rest hfind
    simp only [Option.some.injEq] at h
    subst h
    refine ⟨k, ?_⟩
    have hsub : (p.parsedStatements.find n).Sublist p.parsedStatements.entries :=
      List.dropWhile_sublist _
    rw [hfind] at hsub
    exact hsub.subset (List.mem_cons_self _ _)

/-- A pass whose statement returns and is no jump: the run stops there if the
statement is `END`, and goes on at the natural successor otherwise. -/
theorem loopBody_no_jump (p : Program) (m m2 : Machine)
    (hnojump : ∀ e ∈ p.parsedStatements.entries, e.2.getTargetLine = none)
    (hflag : m.shouldEnd = false) (hexec : executeCurrent p m = .done m2) :
    (p.getParsedStatement m.currentLine = some .EndStatement →
      loopBody p m = .leave (.done m2)) ∧
    (p.getParsedStatement m.currentLine ≠ some .EndStatement →
      loopBody p m =
        .again { m2 with currentLine := p.getNextLineNumber m.currentLine } ∧
      m2.shouldEnd = false) := by
  have hfacts : m2.nextLine = p.getNextLineNumber m.currentLine ∧
      m2.currentLine = m.currentLine ∧
      (p.getParsedStatement m.currentLine = some .EndStatement → m2.shouldEnd = true) ∧
      (p.getParsedStatement m.currentLine ≠ some .EndStatement → m2.shouldEnd = false) := by
    simp only [executeCurrent] at hexec
    rcases hstmt : p.getParsedStatement m.currentLine with _ | stmt
    · simp only [hstmt, Exec.done.injEq] at hexec
      subst hexec
      simp [hflag]
    · simp only [hstmt] at hexec
      obtain ⟨k, hk⟩ := getParsedStatement_mem p _ stmt hstmt
      obtain ⟨h1, h2, h3, h4⟩ := execute_no_jump stmt _ m2 hexec (hnojump _ hk)
      refine ⟨h1, h2, ?_, ?_⟩
      · intro hend
        simp only [Option.some.injEq] at hend
        exact h3 hend
      · intro hend
        simp only [ne_eq, Option.some.injEq] at hend
        rw [h4 hend]
        exact hflag
  obtain ⟨hnext, hcur, hend, hnend⟩ := hfacts
  constructor
  · intro hstmt
    simp [loopBody, hexec, advance, hnext, hcur, hend hstmt]
  · intro hstmt
    refine ⟨?_, hnend hstmt⟩
    simp [loopBody, hexec, advance, hnext, hcur, hnend hstmt]

theorem linesExecuted_succ (p : Program) (fuel : Nat) (m : Machine) :
    linesExecuted p (fuel + 1) m =
      if m.currentLine ≠ -1 ∧ m.shouldEnd = false then
        m.currentLine ::
          (match loopBody p m with
          | .again m2 => linesExecuted p fuel m2
          | .leave _ => [])
      else [] := rfl

/-- The run from a stored line on a table without jumps and without the line
number `-1`, when every statement executed returns. -/
theorem run_no_jump_suffix (p : Program) (hsent : (-1 : Int) ∉ p.sourceLines.keys)
    (hnojump : ∀ e ∈ p.parsedStatements.entries, e.2.getTargetLine = none) :
    ∀ (rest pre : List (Int × String)) (k : Int) (v : String) (m : Machine),
      p.sourceLines.entries = pre ++ (k, v) :: rest → m.currentLine = k →
      m.shouldEnd = false →
      (∀ (j : Nat) (mj : Machine), passes p j m = some mj → mj.currentLine ≠ -1 →
        ∃ m2, executeCurrent p mj = .done m2) →
      ∃ (m' : Machine) (t : List Int),
        runLoop p (rest.length + 2) m = some (.done m') ∧
        linesExecuted p (rest.length + 2) m = k :: t ∧
        (k :: t) <+: (k :: entryKeys rest) ∧
        ((k :: t) = k :: entryKeys rest ∨
          ∃ line, (k :: t).getLast? = some line ∧
            p.getParsedStatement line = some .EndStatement) ∧
        ∀ line ∈ (k :: t).dropLast, p.getParsedStatement line ≠ some .EndStatement := by
  intro rest
  induction rest with
  | nil =>
    intro pre k v m hsplit hcur hflag hret
    subst hcur
    have hk : m.currentLine ≠ -1 := by
      intro hk
      apply hsent
      simp [IntMap.keys, entryKeys, hsplit, hk]
    have hc : m.currentLine ≠ -1 ∧ m.shouldEnd = false := ⟨hk, hflag⟩
    obtain ⟨m2, hexec⟩ := hret 0 m rfl hc.1
    obtain ⟨hendcase, hgo⟩ := loopBody_no_jump p m m2 hnojump hflag hexec
    have hnext : p.getNextLineNumber m.currentLine = -1 := by
      unfold Program.getNextLineNumber
      rw [find_of_split _ _ v pre [] hsplit]
    by_cases hend : p.getParsedStatement m.currentLine = some .EndStatement
    · have hbody := hendcase hend
      refine ⟨m2, [], ?_, ?_, List.prefix_refl _, Or.inl rfl, by simp⟩
      · rw [List.length_nil, runLoop_succ, if_pos hc, hbody]
      · rw [List.length_nil, linesExecuted_succ, if_pos hc, hbody]
    · obtain ⟨hbody, _⟩ := hgo hend
      refine ⟨{ m2 with currentLine := p.getNextLineNumber m.currentLine }, [], ?_, ?_,
        List.prefix_refl _, Or.inl rfl, by simp⟩
      · rw [List.length_nil, runLoop_succ, if_pos hc, hbody]
        simp [runLoop, hnext]
      · rw [List.length_nil, linesExecuted_succ, if_pos hc, hbody]
        simp [linesExecuted, hnext]
  | cons e rest ih =>
    intro pre k v m hsplit hcur hflag hret
    subst hcur
    obtain ⟨k', v'⟩ := e
    have hk : m.currentLine ≠ -1 := by
      intro hk
      apply hsent
      simp [IntMap.keys, entryKeys, hsplit, hk]
    have hc : m.currentLine ≠ -1 ∧ m.shouldEnd = false := ⟨hk, hflag⟩
    obtain ⟨m2, hexec⟩ := hret 0 m rfl hc.1
    obtain ⟨hendcase, hgo⟩ := loopBody_no_jump p m m2 hnojump hflag hexec
    have hnext : p.getNextLineNumber m.currentLine = k' := by
      unfold Program.getNextLineNumber
      rw [find_of_split _ _ v pre _ hsplit]
    by_cases hend : p.getParsedStatement m.currentLine = some .EndStatement
    · have hbody := hendcase hend
      refine ⟨m2, [], ?_, ?_, ?_, Or.inr ⟨m.currentLine, rfl, hend⟩, by simp⟩
      · rw [runLoop_succ, if_pos hc, hbody]
      · rw [linesExecuted_succ, if_pos hc, hbody]
      · exact ⟨entryKeys ((k', v') :: rest), rfl⟩
    · obtain ⟨hbody, hflag2⟩ := hgo hend
      have hsplit' : p.sourceLines.entries =
          (pre ++ [(m.currentLine, v)]) ++ (k', v') :: rest := by
        simp [hsplit]
      have hret' : ∀ (j : Nat) (mj : Machine),
          passes p j { m2 with currentLine := p.getNextLineNumber m.currentLine } = some mj →
          mj.currentLine ≠ -1 → ∃ m3, executeCurrent p mj = .done m3 := by
        intro j mj hj hline
        apply hret (j + 1) mj _ hline
        rw [passes_succ, if_pos hc, hbody]
        exact hj
      obtain ⟨m', t, hrun, hlines, hprefix, hstop, hfirst⟩ :=
        ih (pre ++ [(m.currentLine, v)]) k' v'
          { m2 with currentLine := p.getNextLineNumber m.currentLine }
          hsplit' hnext hflag2 hret'
      refine ⟨m', k' :: t, ?_, ?_, ?_, ?_, ?_⟩
      · rw [List.length_cons, runLoop_succ, if_pos hc, hbody]
        exact hrun
      · rw [List.length_cons, linesExecuted_succ, if_pos hc, hbody]
        simp only [hlines]
      · simp only [entryKeys, List.map_cons] at hprefix ⊢
        exact (List.prefix_cons_inj _).2 hprefix
      · rcases hstop with hall | ⟨line, hlast, hline⟩
        · left
          simp only [entryKeys, List.map_cons] at hall ⊢
          rw [hall]
        · right
          refine ⟨line, ?_, hline⟩
          rw [List.getLast?_cons_cons]
          exact hlast
      · intro line hline
        rw [List.dropLast_cons₂] at hline
        rcases List.mem_cons.1 hline with h1 | h1
        · rw [h1]
          exact hend
        · exact hfirst line h1

/-- C20 (as stated, refuted), twice. The table storing the line numbers `-1`
and `5`, without any parsed statement, has two lines and no `END`, yet the
run makes no pass at all: it stops neither after an `END` nor after the last
line. The table whose only line is `10 INPUT X`, run with nothing left to
read, has no jump and evaluates nothing, yet the run never returns: whatever
the number of passes allowed, it is stuck in its first pass. -/
theorem run_no_jump_counterexample :
    (sentinelKeyProgram.sourceLines.keys = [-1, 5] ∧
      sentinelKeyProgram.parsedStatements.entries = [] ∧
      runProgram 1 sentinelKeyProgram freshMachine = some (.done freshMachine) ∧
      linesExecuted sentinelKeyProgram 3 (enterLoop sentinelKeyProgram freshMachine) = []) ∧
    (inputOnlyProgram.sourceLines.keys = [10] ∧
      inputOnlyProgram.getParsedStatement 10 = some (.InputStatement "X") ∧
      (∀ fuel, 0 < fuel → runProgram fuel inputOnlyProgram freshMachine =
        some (.starved ⟨EvalState.empty, 10, -1, false, [], []⟩)) ∧
      ∀ (fuel : Nat) (m' : Machine),
        runProgram fuel inputOnlyProgram freshMachine ≠ some (.done m')) := by
  have hstarved : ∀ fuel, 0 < fuel → runProgram fuel inputOnlyProgram freshMachine =
      some (.starved ⟨EvalState.empty, 10, -1, false, [], []⟩) := by
    intro fuel hfuel
    exact runLoop_mono _ 1 fuel _ _ rfl hfuel
  refine ⟨⟨by decide, by decide, rfl, rfl⟩, by decide, by decide, hstarved, ?_⟩
  intro fuel m' h
  rcases fuel with _ | k
  · have h0 : runProgram 0 inputOnlyProgram freshMachine = none := rfl
    rw [h0] at h
    simp at h
  · rw [hstarved (k + 1) (by omega)] at h
    simp at h

/-- C20 (amended): for every program table with `n` stored lines, none
numbered `-1`, none of whose parsed statements is an unconditional or
conditional jump, and every machine (every store and input) on which every
statement the run executes returns (no evaluation fails, no `INPUT` runs out
of input): `runProgram` returns normally with any number of passes above `n`;
the lines at which it makes its passes are at most `n` and form an initial
part of the stored line numbers in ascending order, each once; they are all
the stored lines, or the last of them holds `END`; and no line before the
last holds `END`. -/
theorem run_no_jump (p : Program) (m : Machine)
    (hsent : (-1 : Int) ∉ p.sourceLines.keys)
    (hnojump : ∀ e ∈ p.parsedStatements.entries, e.2.getTargetLine = none)
    (hreturns : ∀ (k : Nat) (mk : Machine), passes p k (enterLoop p m) = some mk →
      mk.currentLine ≠ -1 → ∃ m2, executeCurrent p mk = .done m2) :
    ∃ (m' : Machine) (lines : List Int),
      (∀ fuel, p.sourceLines.entries.length < fuel →
        runProgram fuel p m = some (.done m')) ∧
      linesExecuted p (p.sourceLines.entries.length + 1) (enterLoop p m) = lines ∧
      lines.length ≤ p.sourceLines.entries.length ∧
      lines <+: p.sourceLines.keys ∧
      p.sourceLines.keys.Pairwise (fun a b => a < b) ∧
      (lines = p.sourceLines.keys ∨
        ∃ line, lines.getLast? = some line ∧
          p.getParsedStatement line = some .EndStatement) ∧
      ∀ line ∈ lines.dropLast, p.getParsedStatement line ≠ some .EndStatement := by
  rcases hes : p.sourceLines.entries with _ | ⟨⟨k, v⟩, rest⟩
  · refine ⟨{ m with currentLine := -1, shouldEnd := false }, [], ?_, ?_, by simp, ?_,
      p.sourceLines.ordered, ?_, by simp⟩
    · intro fuel hfuel
      exact runProgram_of_no_lines p m fuel hes (by omega)
    · have hfirst : p.getFirstLineNumber = -1 := by
        unfold Program.getFirstLineNumber
        rw [hes]
      simp [linesExecuted, enterLoop, hfirst]
    · simp [IntMap.keys, entryKeys, hes]
    · left
      simp [IntMap.keys, entryKeys, hes]
  · have hfirst : (enterLoop p m).currentLine = k := by
      simp [enterLoop, Program.getFirstLineNumber, hes]
    obtain ⟨m', t, hrun, hlines, hprefix, hstop, hfirstEnd⟩ :=
      run_no_jump_suffix p hsent hnojump rest [] k v (enterLoop p m) (by simp [hes]) hfirst
        rfl hreturns
    have hkeys : p.sourceLines.keys = k :: entryKeys rest := by
      simp [IntMap.keys, entryKeys, hes]
    have hlen : (k :: t).length ≤ rest.length + 1 := by
      have := hprefix.length_le
      simpa [entryKeys] using this
    refine ⟨m', k :: t, ?_, ?_, ?_, ?_, p.sourceLines.ordered, ?_, hfirstEnd⟩
    · intro fuel hfuel
      rw [runProgram_eq]
      apply runLoop_mono p (rest.length + 2) fuel _ _ hrun
      simp only [List.length_cons] at hfuel
      omega
    · simp only [List.length_cons]
      exact hlines
    · simpa using hlen
    · rw [hkeys]
      exact hprefix
    · rw [hkeys]
      exact hstop

/-- C20 (amended) on `10 LET X = 1`, `20 PRINT X`, `30 END`, `40 PRINT X`:
the run makes its passes at lines 10, 20, 30 and returns, with `1` written. -/
theorem run_no_jump_witness :
    ∃ (m' : Machine) (lines : List Int),
      (∀ fuel, straightProgram.sourceLines.entries.length < fuel →
        runProgram fuel straightProgram freshMachine = some (.done m')) ∧
      linesExecuted straightProgram (straightProgram.sourceLines.entries.length + 1)
        (enterLoop straightProgram freshMachine) = lines ∧
      lines.length ≤ straightProgram.sourceLines.entries.length ∧
      lines <+: straightProgram.sourceLines.keys ∧
      straightProgram.sourceLines.keys.Pairwise (fun a b => a < b) ∧
      (lines = straightProgram.sourceLines.keys ∨
        ∃ line, lines.getLast? = some line ∧
          straightProgram.getParsedStatement line = some .EndStatement) ∧
      ∀ line ∈ lines.dropLast, straightProgram.getParsedStatement line ≠ some .EndStatement :=
  run_no_jump straightProgram freshMachine (by decide) (by decide) (by
    intro k mk hk _
    have hlast := passes_none_of_leave straightProgram 2
      (enterLoop straightProgram freshMachine)
      ⟨EvalState.empty.setValue "X" 1, 30, 30, false, ["1\n"], []⟩
      (.done ⟨EvalState.empty.setValue "X" 1, 30, 40, true, ["1\n"], []⟩) rfl rfl
    rcases k with _ | _ | _ | k
    · have h0 : passes straightProgram 0 (enterLoop straightProgram freshMachine) =
          some ⟨EvalState.empty, 10, -1, false, [], []⟩ := rfl
      rw [h0] at hk
      simp only [Option.some.injEq] at hk
      subst hk
      exact ⟨_, rfl⟩
    · have h1 : passes straightProgram 1 (enterLoop straightProgram freshMachine) =
          some ⟨EvalState.empty.setValue "X" 1, 20, 20, false, [], []⟩ := rfl
      rw [h1] at hk
      simp only [Option.some.injEq] at hk
      subst hk
      exact ⟨_, rfl⟩
    · have h2 : passes straightProgram 2 (enterLoop straightProgram freshMachine) =
          some ⟨EvalState.empty.setValue "X" 1, 30, 30, false, ["1\n"], []⟩ := rfl
      rw [h2] at hk
      simp only [Option.some.injEq] at hk
      subst hk
      exact ⟨_, rfl⟩
    · rw [hlast (k + 3) (by omega)] at hk
      simp at hk)

end Basic
